import Mathlib

/-!
# Rope: a shallow embedding of `lib/rope.c`

The C structure `struct rope_t` has the fields `left_length`, `left`, `right`,
`length` and `data`.  A node is a leaf exactly when both child pointers are
null (`is_leaf`); internal nodes are built only by `rope_concat`, which stores
two non-null children, and `rope_split` replaces a right child by `empty()`
and never by a null pointer.  A tree is therefore either

* a leaf, carrying its buffer pointer `data` (`none` is the null pointer,
  `some d` an allocated buffer holding the bytes `d`) and its recorded
  `length`, or
* an internal node, carrying `left_length` and its two children.

`unsigned int` is 32 bits wide: values are natural numbers below `2 ^ 32`,
and the one addition of the library that can overflow (`rope_length`) is
reduced modulo `2 ^ 32`.  Every subtraction of the source is guarded by a
comparison, so no other operation wraps.

`rope_destroy` only releases storage and has no counterpart here.

In-place mutation is made explicit: a function that mutates the tree rooted at
its argument returns the new value of that tree next to its C return value.
A failed `assert` aborts the process; it is modelled by `Except.error t`,
where `t` is the tree rooted at the argument at the moment of the abort.
-/

namespace Rope

/-- A byte of a leaf buffer (the numeric value of a C `char`). -/
abbrev Byte := Nat

/-- Number of values of an `unsigned int` (32 bits). -/
def UINT_SIZE : Nat := 4294967296

/-- Largest value of an `int` (32 bits, two's complement). -/
def INT_MAX : Int := 2147483647

/-- Smallest value of an `int` (32 bits, two's complement). -/
def INT_MIN : Int := -2147483648

end Rope

/-- The tree reachable from a `struct rope_t *`. -/
inductive Rope where
  | leaf (data : Option (List Rope.Byte)) (length : Nat)
  | node (left_length : Nat) (left right : Rope)
deriving DecidableEq

namespace Rope

/-- The result of `&data[position]`: a pointer into the buffer `position`
bytes further on.  On the null pointer the source only takes this address
with `position = 0` when the leaf is well formed (the preceding assertion
bounds `position` by the recorded length, which is 0), where it is null again. -/
def offset (data : Option (List Byte)) (position : Nat) : Option (List Byte) :=
  match data with
  | some d => some (d.drop position)
  | none => none

/-- Embedding of `rope_create`: with a non-null `data` the leaf owns a fresh
buffer holding the first `length` bytes found at `data`; with a null `data`
the leaf is empty (length 0, null buffer) whatever `length` is.  The source
buffer must hold `length` bytes: `memcpy` beyond it is undefined in C, and the
embedding then copies the bytes that exist. -/
def rope_create (data : Option (List Byte)) (length : Nat) : Rope :=
  match data with
  | some d => .leaf (some (d.take length)) length
  | none => .leaf none 0

/-- Embedding of the static helper `empty`: `rope_create(0, 0)`. -/
def empty : Rope := rope_create none 0

/-- Embedding of `rope_length`: the recorded length of a leaf, otherwise
`left_length + rope_length(right)` in `unsigned int` arithmetic. -/
def rope_length : Rope → Nat
  | .leaf _ length => length
  | .node left_length _ right => (left_length + rope_length right) % UINT_SIZE

/-- Embedding of `rope_iter`: the callback receives the buffer pointer and
the recorded length of each leaf, and threads the context `ctx`. -/
def rope_iter {σ : Type} : Rope → (Option (List Byte) → Nat → σ → σ) → σ → σ
  | .leaf data length, cb, ctx => cb data length ctx
  | .node _ left right, cb, ctx => rope_iter right cb (rope_iter left cb ctx)

/-- Embedding of `rope_char`: `data[position]` at a leaf, with no check
against the recorded length; `none` stands for a read outside the buffer
(or through a null pointer), which the source does not guard. -/
def rope_char : Rope → Nat → Option Byte
  | .leaf data _, position =>
      match data with
      | some d => d[position]?
      | none => none
  | .node left_length left right, position =>
      if left_length ≤ position then rope_char right (position - left_length)
      else rope_char left position

/-- Embedding of `rope_concat`: a new internal node whose `left_length` is
`rope_length(left)`. -/
def rope_concat (left right : Rope) : Rope :=
  .node (rope_length left) left right

/-- Embedding of `rope_split`.  `Except.ok (root', tail)` gives the tree rooted
at `root` after the call and the returned tail; `Except.error root'` is a
failed assertion, with the tree rooted at `root` at that moment. -/
def rope_split : Rope → Nat → Except Rope (Rope × Rope)
  | .leaf data length, position =>
      if position ≤ length then
        .ok (.leaf data position, rope_create (offset data position) (length - position))
      else .error (.leaf data length)
  | .node left_length left right, position =>
      if left_length < position then
        match rope_split right (position - left_length) with
        | .ok (right', tail) => .ok (.node left_length left right', tail)
        | .error right' => .error (.node left_length left right')
      else if left_length = position then
        .ok (.node position left empty, right)
      else
        match rope_split left position with
        | .ok (left', tail) => .ok (.node position left' empty, rope_concat tail right)
        | .error left' => .error (.node left_length left' right)

/-- Embedding of `rope_insert`.  The assertions `data` and `length > 0` come
first; then the tree is split and the new leaf is spliced in. -/
def rope_insert (root : Rope) (position : Nat) (data : Option (List Byte))
    (length : Nat) : Except Rope Rope :=
  match data with
  | none => .error root
  | some d =>
      if length > 0 then
        match rope_split root position with
        | .ok (head, tail) =>
            .ok (rope_concat head (rope_concat (rope_create (some d) length) tail))
        | .error root' => .error root'
      else .error root

/-- Embedding of `rope_delete`.  After the assertion `to_position >
from_position` the tree is split at `from_position`, the returned middle is
split at `to_position - from_position`, the middle is destroyed and head and
tail are joined.  When the second split aborts, the tree rooted at `root` is
the head left by the first split. -/
def rope_delete (root : Rope) (from_position to_position : Nat) : Except Rope Rope :=
  if to_position > from_position then
    match rope_split root from_position with
    | .ok (head, middle) =>
        match rope_split middle (to_position - from_position) with
        | .ok (_, tail) => .ok (rope_concat head tail)
        | .error _ => .error head
    | .error root' => .error root'
  else .error root

/-- Conversion of an `int` to `unsigned int`: reduction modulo `2 ^ 32`. -/
def toUnsigned (i : Int) : Nat := (i % (UINT_SIZE : Int)).toNat

/-- Conversion of an `unsigned int` to `int` (two's complement). -/
def toSigned (u : Nat) : Int :=
  if (u : Int) ≤ INT_MAX then (u : Int) else (u : Int) - (UINT_SIZE : Int)

/-- Embedding of `rope_position`.  In the negative branch the sum
`rope_length(root) + signed_position + 1` is computed in `unsigned int`
(the usual arithmetic conversion of the `int` operand) and then stored in an
`int`; `none` is the failed assertion `rope_position >= 0`. -/
def rope_position (root : Rope) (signed_position : Int) : Option Nat :=
  if signed_position ≥ 0 then some (toUnsigned signed_position)
  else
    let rope_position : Int :=
      toSigned ((rope_length root + toUnsigned signed_position + 1) % UINT_SIZE)
    if rope_position ≥ 0 then some (toUnsigned rope_position) else none

/-! ## Specification vocabulary -/

/-- The bytes a leaf contributes to the content: the first `length` bytes of
its buffer (nothing for a null buffer). -/
def leafBytes (data : Option (List Byte)) (length : Nat) : List Byte :=
  match data with
  | some d => d.take length
  | none => []

/-- Flattened content: `rope_iter` with a callback that appends the first
`length` bytes of every visited buffer, as the collector of `test.c` does
(without its `|` marks). -/
def flatten (root : Rope) : List Byte :=
  rope_iter root (fun data length acc => acc ++ leafBytes data length) []

/-- Size of the buffer behind a data pointer (0 for the null pointer). -/
def bufSize (data : Option (List Byte)) : Nat :=
  match data with
  | some d => d.length
  | none => 0

/-- Well-formed rope: every internal node has `left_length` equal to
`rope_length` of its left subtree, and every leaf's recorded length is within
its buffer. -/
def WF : Rope → Prop
  | .leaf data length => length ≤ bufSize data
  | .node left_length left right => left_length = rope_length left ∧ WF left ∧ WF right

/-- Every `unsigned int` field of the tree holds a value below `2 ^ 32`. -/
def InRange : Rope → Prop
  | .leaf _ length => length < UINT_SIZE
  | .node left_length left right => left_length < UINT_SIZE ∧ InRange left ∧ InRange right

/-- Sum of the recorded lengths of the leaves, in in-order. -/
def leafSum : Rope → Nat
  | .leaf _ length => length
  | .node _ left right => leafSum left + leafSum right

/-- Every cached `left_length` is the number of content bytes below the left
child, and every leaf's recorded length is within its buffer. -/
def Exact : Rope → Prop
  | .leaf data length => length ≤ bufSize data
  | .node left_length left right =>
      left_length = (flatten left).length ∧ Exact left ∧ Exact right

instance decWF : (r : Rope) → Decidable (WF r)
  | .leaf data length => inferInstanceAs (Decidable (length ≤ bufSize data))
  | .node left_length left right =>
      have := decWF left
      have := decWF right
      inferInstanceAs (Decidable (left_length = rope_length left ∧ WF left ∧ WF right))

instance decInRange : (r : Rope) → Decidable (InRange r)
  | .leaf _ length => inferInstanceAs (Decidable (length < UINT_SIZE))
  | .node left_length left right =>
      have := decInRange left
      have := decInRange right
      inferInstanceAs (Decidable (left_length < UINT_SIZE ∧ InRange left ∧ InRange right))

/-- The rope `helo|world` of `test.c`: `rope_concat(rope_create("helo", 4),
rope_create("world", 5))`. -/
def helo_world : Rope :=
  rope_concat (rope_create (some [104, 101, 108, 111]) 4)
    (rope_create (some [119, 111, 114, 108, 100]) 5)

/-- The head that `rope_split(helo|world, 2)` leaves behind, joined again with
a leaf `world`: its first leaf is truncated to `he` (the buffer still holds
`helo`) and is followed by an empty leaf. -/
def he_world : Rope :=
  rope_concat (.node 2 (.leaf (some [104, 101, 108, 111]) 2) empty)
    (rope_create (some [119, 111, 114, 108, 100]) 5)

/-- A leaf created by `rope_create(buf, n)` from a buffer of `n` zero bytes. -/
def zeroLeaf (n : Nat) : Rope := rope_create (some (List.replicate n 0)) n

/-- The rope `rope_concat(rope_create(buf, n), rope_create(buf, n))` over
a buffer of `n` zero bytes. -/
def zeroPair (n : Nat) : Rope := rope_concat (zeroLeaf n) (zeroLeaf n)

/-- The rope `rope_concat(zeroPair, rope_create("xyz", 3))`. -/
def wrapRope (n : Nat) : Rope :=
  rope_concat (zeroPair n) (rope_create (some [120, 121, 122]) 3)

/-- Two leaves of `2 ^ 31` zero bytes each, joined by `rope_concat`: 4 GiB of
content, whose length does not fit an `unsigned int`. -/
def bigPair : Rope := zeroPair 2147483648

/-- The rope `bigPair` followed by the leaf `xyz`. -/
def bigRope : Rope := wrapRope 2147483648

/-- A single leaf of `2 ^ 32 - 1` zero bytes, the longest a leaf can record. -/
def maxLeaf : Rope := zeroLeaf 4294967295

/-- A child pointer followed by a recursive call. -/
inductive Dir where
  | left
  | right
deriving DecidableEq

/-- The children `rope_split` recurses into, from the root down: the right
child when `left_length < position`, no child when `left_length == position`
or at a leaf, the left child otherwise.  The branches are those of
`rope_split`. -/
def split_path : Rope → Nat → List Dir
  | .leaf _ _, _ => []
  | .node left_length left right, position =>
      if left_length < position then
        Dir.right :: split_path right (position - left_length)
      else if left_length = position then []
      else Dir.left :: split_path left position

/-- The chunks recorded by the collector of `test.c` (`collect` running
`rope_iter` with `_collect`): for every leaf with a non-zero length, its first
`length` bytes, in visiting order; leaves of length 0 leave no trace. -/
def chunks (root : Rope) : List (List Byte) :=
  rope_iter root
    (fun data length acc => if length ≠ 0 then acc ++ [leafBytes data length] else acc) []

/-- Position `p` falls on a boundary between chunks, at 0 or at the end: it is
the total size of the first `k` chunks for some `k`. -/
def isBoundary (cs : List (List Byte)) (p : Nat) : Prop :=
  p ∈ (List.range (cs.length + 1)).map (fun k => (cs.take k).flatten.length)

instance decIsBoundary (cs : List (List Byte)) (p : Nat) : Decidable (isBoundary cs p) :=
  inferInstanceAs (Decidable (p ∈ _))

/-- The chunk lists `hs` and `ts` are the chunk list `cs` with the single
chunk `c` that contains offset `p` replaced by its two non-empty pieces
`c[0:k]` and `c[k:]`, the cut falling between `hs` and `ts`. -/
def cutInside (cs hs ts : List (List Byte)) (p : Nat) : Prop :=
  ∃ pre c post, cs = pre ++ c :: post
    ∧ pre.flatten.length < p ∧ p < pre.flatten.length + c.length
    ∧ c.take (p - pre.flatten.length) ≠ [] ∧ c.drop (p - pre.flatten.length) ≠ []
    ∧ hs = pre ++ [c.take (p - pre.flatten.length)]
    ∧ ts = c.drop (p - pre.flatten.length) :: post

/-- Specification side of the iteration claim: the leaves of a rope in
left-to-right order, each with its buffer pointer and recorded length;
internal nodes contribute nothing of their own. -/
def leavesInOrder : Rope → List (Option (List Byte) × Nat)
  | .leaf data length => [(data, length)]
  | .node _ left right => leavesInOrder left ++ leavesInOrder right

/-- Specification side of the iteration claim: a left fold of the callback
over the in-order list of leaves. -/
def iterate_spec {σ : Type} (root : Rope) (cb : Option (List Byte) → Nat → σ → σ)
    (ctx : σ) : σ :=
  (leavesInOrder root).foldl (fun acc lf => cb lf.1 lf.2 acc) ctx

/-- A callback that records its invocations: the arguments of every call, in
calling order. -/
def record_cb (data : Option (List Byte)) (length : Nat)
    (log : List (Option (List Byte) × Nat)) : List (Option (List Byte) × Nat) :=
  log ++ [(data, length)]

/-! ## Basic facts about the embedding -/

theorem rope_iter_collect (r : Rope) (acc : List Byte) :
    rope_iter r (fun data length acc => acc ++ leafBytes data length) acc
      = acc ++ flatten r := by
  induction r generalizing acc with
  | leaf data length => simp [rope_iter, flatten]
  | node ll l r ihl ihr =>
      simp only [flatten, rope_iter]
      rw [ihr, ihl, ihr (rope_iter l _ []), ihl []]
      simp

@[simp] theorem flatten_leaf (data : Option (List Byte)) (length : Nat) :
    flatten (.leaf data length) = leafBytes data length := by
  simp [flatten, rope_iter]

@[simp] theorem flatten_node (ll : Nat) (l r : Rope) :
    flatten (.node ll l r) = flatten l ++ flatten r := by
  simp only [flatten, rope_iter]
  rw [rope_iter_collect, rope_iter_collect]
  simp [flatten]

@[simp] theorem flatten_empty : flatten empty = [] := by
  simp [empty, rope_create, leafBytes]

@[simp] theorem flatten_concat (l r : Rope) :
    flatten (rope_concat l r) = flatten l ++ flatten r := by
  simp [rope_concat]

theorem rope_length_lt (r : Rope) (h : InRange r) : rope_length r < UINT_SIZE := by
  cases r with
  | leaf data length => simpa [rope_length, InRange] using h
  | node ll l r => exact Nat.mod_lt _ (by decide)


theorem leafBytes_length (data : Option (List Byte)) (length : Nat)
    (h : length ≤ bufSize data) : (leafBytes data length).length = length := by
  cases data with
  | none => simp [bufSize] at h; simp [leafBytes, h]
  | some d => simp [bufSize] at h; simp [leafBytes, h]

theorem leaf_split_head (data : Option (List Byte)) (length p : Nat) (hp : p ≤ length) :
    leafBytes data p = (leafBytes data length).take p := by
  cases data with
  | none => simp [leafBytes]
  | some d => simp [leafBytes, List.take_take, hp]

theorem leaf_split_tail (data : Option (List Byte)) (length p : Nat) :
    flatten (rope_create (offset data p) (length - p))
      = (leafBytes data length).drop p := by
  cases data with
  | none => simp [offset, rope_create, leafBytes]
  | some d => simp [offset, rope_create, leafBytes, List.drop_take]

theorem wf_rope_create_offset (data : Option (List Byte)) (length p : Nat)
    (h : length ≤ bufSize data) : WF (rope_create (offset data p) (length - p)) := by
  cases data with
  | none => simp [offset, rope_create, WF, bufSize]
  | some d =>
      simp [bufSize] at h
      simp [offset, rope_create, WF, bufSize]
      omega

theorem rope_length_rope_create_offset (data : Option (List Byte)) (length p : Nat)
    (h : length ≤ bufSize data) :
    rope_length (rope_create (offset data p) (length - p)) = length - p := by
  cases data with
  | none => simp [bufSize] at h; simp [offset, rope_create, rope_length, h]
  | some d => simp [offset, rope_create, rope_length]

theorem inRange_rope_create_offset (data : Option (List Byte)) (length p : Nat)
    (h : length < UINT_SIZE) : InRange (rope_create (offset data p) (length - p)) := by
  cases data with
  | none => simp [offset, rope_create, InRange, UINT_SIZE]
  | some d => simp [offset, rope_create, InRange]; omega

theorem wf_empty : WF empty := by simp [empty, rope_create, WF, bufSize]

theorem inRange_empty : InRange empty := by simp [empty, rope_create, InRange, UINT_SIZE]

theorem rope_length_empty : rope_length empty = 0 := by simp [empty, rope_create, rope_length]

/-- In a well-formed rope the leaf lengths add up to the number of content bytes. -/
theorem leafSum_eq_flatten_length (r : Rope) (h : WF r) :
    leafSum r = (flatten r).length := by
  induction r with
  | leaf data length => simp [leafSum, leafBytes_length data length h]
  | node ll l r ihl ihr =>
      obtain ⟨_, hl, hr⟩ := h
      simp [leafSum, ihl hl, ihr hr]

/-- A well-formed rope whose content fits an `unsigned int` has all its
fields in range. -/
theorem inRange_of_wf (r : Rope) (h : WF r) (hb : (flatten r).length < UINT_SIZE) :
    InRange r := by
  induction r with
  | leaf data length =>
      have := leafBytes_length data length h
      simp at hb
      simp [InRange]; omega
  | node ll l r ihl ihr =>
      obtain ⟨hll, hl, hr⟩ := h
      simp at hb
      have il := ihl hl (by omega)
      have ir := ihr hr (by omega)
      exact ⟨by rw [hll]; exact rope_length_lt l il, il, ir⟩

/-- A well-formed rope whose content fits an `unsigned int` caches exact
lengths, and `rope_length` is the number of content bytes. -/
theorem exact_of_wf (r : Rope) (h : WF r) (hb : (flatten r).length < UINT_SIZE) :
    rope_length r = (flatten r).length ∧ Exact r := by
  induction r with
  | leaf data length =>
      exact ⟨by simp [rope_length, leafBytes_length data length h], h⟩
  | node ll l r ihl ihr =>
      obtain ⟨hll, hl, hr⟩ := h
      simp at hb
      obtain ⟨el, xl⟩ := ihl hl (by omega)
      obtain ⟨er, xr⟩ := ihr hr (by omega)
      refine ⟨?_, by rw [hll, el], xl, xr⟩
      simp only [rope_length, flatten_node, List.length_append]
      rw [hll, el, er]
      exact Nat.mod_eq_of_lt hb


/-- With exact cached lengths, a split inside the content succeeds and cuts
the content at `p`. -/
theorem rope_split_exact (r : Rope) (p : Nat) (h : Exact r)
    (hp : p ≤ (flatten r).length) :
    ∃ hd tl, rope_split r p = .ok (hd, tl) ∧ flatten hd = (flatten r).take p
      ∧ flatten tl = (flatten r).drop p := by
  induction r generalizing p with
  | leaf data length =>
      have hlen := leafBytes_length data length h
      simp only [flatten_leaf, hlen] at hp
      have e0 : rope_split (.leaf data length) p
          = .ok (.leaf data p, rope_create (offset data p) (length - p)) := by
        simp [rope_split, hp]
      refine ⟨_, _, e0, ?_, ?_⟩
      · simpa using leaf_split_head data length p hp
      · simpa using leaf_split_tail data length p
  | node ll l r ihl ihr =>
      obtain ⟨hll, xl, xr⟩ := h
      simp only [flatten_node, List.length_append] at hp
      by_cases h1 : ll < p
      · obtain ⟨hd, tl, e, e1, e2⟩ := ihr (p - ll) xr (by omega)
        have e0 : rope_split (.node ll l r) p = .ok (.node ll l hd, tl) := by
          simp [rope_split, h1, e]
        refine ⟨_, _, e0, ?_, ?_⟩
        · have hle : (flatten l).length ≤ p := by omega
          simp only [flatten_node, e1, List.take_append_eq_append_take,
            List.take_of_length_le hle, hll]
        · have hle : (flatten l).length ≤ p := by omega
          simp only [e2, flatten_node, List.drop_append_eq_append_drop,
            List.drop_of_length_le hle, hll, List.nil_append]
      · by_cases h2 : ll = p
        · have e0 : rope_split (.node ll l r) p = .ok (.node p l empty, r) := by
            simp [rope_split, h2]
          refine ⟨_, _, e0, ?_, ?_⟩
          · have hle : (flatten l).length ≤ p := by omega
            simp only [flatten_node, flatten_empty, List.append_nil,
              List.take_append_eq_append_take, List.take_of_length_le hle]
            simp [← h2, hll]
          · have hle : (flatten l).length ≤ p := by omega
            simp only [flatten_node, List.drop_append_eq_append_drop,
              List.drop_of_length_le hle]
            simp [← h2, hll]
        · obtain ⟨hd, tl, e, e1, e2⟩ := ihl p xl (by omega)
          have e0 : rope_split (.node ll l r) p
              = .ok (.node p hd empty, rope_concat tl r) := by
            simp [rope_split, h1, h2, e]
          refine ⟨_, _, e0, ?_, ?_⟩
          · simp only [flatten_node, flatten_empty, List.append_nil, e1,
              List.take_append_eq_append_take]
            have : p - (flatten l).length = 0 := by omega
            simp [this]
          · simp only [flatten_concat, e2, flatten_node, List.drop_append_eq_append_drop]
            have : p - (flatten l).length = 0 := by omega
            simp [this]

/-- On a well-formed rope with in-range fields, a split at `p ≤ rope_length`
succeeds; both parts are again well formed and in range, their cached lengths
are `p` and `rope_length r - p`, and no content byte is lost or reordered. -/
theorem rope_split_wf (r : Rope) (p : Nat) (h : WF r) (hr : InRange r)
    (hp : p ≤ rope_length r) :
    ∃ hd tl, rope_split r p = .ok (hd, tl) ∧ WF hd ∧ WF tl ∧ InRange hd ∧ InRange tl
      ∧ rope_length hd = p ∧ rope_length tl = rope_length r - p
      ∧ flatten hd ++ flatten tl = flatten r := by
  induction r generalizing p with
  | leaf data length =>
      simp only [rope_length] at hp
      simp only [InRange] at hr
      have e0 : rope_split (.leaf data length) p
          = .ok (.leaf data p, rope_create (offset data p) (length - p)) := by
        simp [rope_split, hp]
      refine ⟨_, _, e0, ?_, ?_, ?_, ?_, ?_, ?_, ?_⟩
      · exact le_trans hp h
      · exact wf_rope_create_offset data length p h
      · simp only [InRange]; omega
      · exact inRange_rope_create_offset data length p hr
      · simp [rope_length]
      · simpa [rope_length] using rope_length_rope_create_offset data length p h
      · rw [leaf_split_tail, flatten_leaf, flatten_leaf, leaf_split_head data length p hp]
        exact List.take_append_drop p _
  | node ll l r ihl ihr =>
      obtain ⟨hll, wl, wr⟩ := h
      obtain ⟨rll, rl, rr⟩ := hr
      have hlr := rope_length_lt r rr
      simp only [rope_length] at hp
      simp only [UINT_SIZE] at hlr rll hp
      by_cases h1 : ll < p
      · have hsum : ll + rope_length r < 4294967296 := by
          by_contra hc
          have : (ll + rope_length r) % 4294967296 = ll + rope_length r - 4294967296 := by
            omega
          omega
        have hmod : (ll + rope_length r) % 4294967296 = ll + rope_length r :=
          Nat.mod_eq_of_lt hsum
        obtain ⟨hd, tl, e, w1, w2, r1, r2, l1, l2, f⟩ := ihr (p - ll) wr rr (by omega)
        have e0 : rope_split (.node ll l r) p = .ok (.node ll l hd, tl) := by
          simp [rope_split, h1, e]
        have wh : WF (.node ll l hd) := ⟨hll, wl, w1⟩
        have rh : InRange (.node ll l hd) := ⟨by simpa [UINT_SIZE] using rll, rl, r1⟩
        refine ⟨_, _, e0, wh, w2, rh, r2, ?_, ?_, ?_⟩
        · simp only [rope_length, l1, UINT_SIZE]; omega
        · simp only [rope_length, l2, UINT_SIZE]; omega
        · simp only [flatten_node, List.append_assoc, f]
      · by_cases h2 : ll = p
        · have hsum : ll + rope_length r < 4294967296 := by
            by_contra hc
            have : (ll + rope_length r) % 4294967296 = ll + rope_length r - 4294967296 := by
              omega
            omega
          have e0 : rope_split (.node ll l r) p = .ok (.node p l empty, r) := by
            simp [rope_split, h2]
          have wh : WF (.node p l empty) := ⟨by rw [← h2, hll], wl, wf_empty⟩
          have rh : InRange (.node p l empty) :=
            ⟨by simp only [UINT_SIZE]; omega, rl, inRange_empty⟩
          refine ⟨_, _, e0, wh, wr, rh, rr, ?_, ?_, ?_⟩
          · simp only [rope_length, rope_length_empty, UINT_SIZE]; omega
          · simp only [rope_length, UINT_SIZE]; omega
          · simp
        · obtain ⟨hd, tl, e, w1, w2, r1, r2, l1, l2, f⟩ := ihl p wl rl (by omega)
          have htl := rope_length_lt tl r2
          simp only [UINT_SIZE] at htl
          have e0 : rope_split (.node ll l r) p
              = .ok (.node p hd empty, rope_concat tl r) := by
            simp [rope_split, h1, h2, e]
          have wh : WF (.node p hd empty) := ⟨l1.symm, w1, wf_empty⟩
          have wt : WF (rope_concat tl r) := ⟨rfl, w2, wr⟩
          have rh : InRange (.node p hd empty) :=
            ⟨by simp only [UINT_SIZE]; omega, r1, inRange_empty⟩
          have rt : InRange (rope_concat tl r) :=
            ⟨by simpa [UINT_SIZE] using htl, r2, rr⟩
          refine ⟨_, _, e0, wh, wt, rh, rt, ?_, ?_, ?_⟩
          · simp only [rope_length, rope_length_empty, UINT_SIZE]; omega
          · simp only [rope_concat, rope_length, l2, UINT_SIZE]; omega
          · simp only [flatten_node, flatten_empty, List.append_nil, flatten_concat,
              ← List.append_assoc, f]


/-! ## Ropes whose content does not fit an `unsigned int` -/

theorem wf_zeroLeaf (n : Nat) : WF (zeroLeaf n) := by
  simp [zeroLeaf, rope_create, WF, bufSize]

theorem flatten_zeroLeaf (n : Nat) : flatten (zeroLeaf n) = List.replicate n 0 := by
  simp [zeroLeaf, rope_create, leafBytes]

theorem wf_zeroPair (n : Nat) : WF (zeroPair n) :=
  ⟨rfl, wf_zeroLeaf n, wf_zeroLeaf n⟩

theorem inRange_zeroPair (n : Nat) (hn : n + n = UINT_SIZE) : InRange (zeroPair n) := by
  simp only [UINT_SIZE] at hn
  simp only [zeroPair, rope_concat, zeroLeaf, rope_create, rope_length, InRange, UINT_SIZE]
  omega

theorem inRange_wrapRope (n : Nat) (hn : n + n = UINT_SIZE) : InRange (wrapRope n) := by
  refine ⟨rope_length_lt _ (inRange_zeroPair n hn), inRange_zeroPair n hn, ?_⟩
  simp [rope_create, InRange, UINT_SIZE]

theorem rope_length_zeroPair (n : Nat) (hn : n + n = UINT_SIZE) :
    rope_length (zeroPair n) = 0 := by
  simp [zeroPair, rope_concat, rope_length, zeroLeaf, rope_create, hn]

theorem leafSum_zeroPair (n : Nat) : leafSum (zeroPair n) = n + n := by
  simp [zeroPair, rope_concat, leafSum, zeroLeaf, rope_create]

theorem flatten_zeroPair (n : Nat) :
    flatten (zeroPair n) = List.replicate n 0 ++ List.replicate n 0 := by
  simp [zeroPair, flatten_zeroLeaf]

theorem wf_wrapRope (n : Nat) : WF (wrapRope n) :=
  ⟨rfl, wf_zeroPair n, by simp [rope_create, WF, bufSize]⟩

theorem rope_length_wrapRope (n : Nat) (hn : n + n = UINT_SIZE) :
    rope_length (wrapRope n) = 3 := by
  simp only [wrapRope, rope_concat, rope_length, rope_create, UINT_SIZE] at hn ⊢
  omega

theorem flatten_wrapRope (n : Nat) :
    flatten (wrapRope n)
      = List.replicate n 0 ++ List.replicate n 0 ++ [120, 121, 122] := by
  simp [wrapRope, flatten_zeroPair, rope_create, leafBytes]

theorem rope_split_wrapRope_one (n : Nat) (hn : n + n = UINT_SIZE) :
    rope_split (wrapRope n) 1
      = .ok (.node 0 (zeroPair n) (.leaf (some [120, 121, 122]) 1),
             .leaf (some [121, 122]) 2) := by
  have h0 := rope_length_zeroPair n hn
  simp [wrapRope, rope_concat, h0, rope_split, rope_create, offset]

theorem rope_split_wrapRope_zero (n : Nat) (hn : n + n = UINT_SIZE) :
    rope_split (wrapRope n) 0
      = .ok (.node 0 (zeroPair n) empty, .leaf (some [120, 121, 122]) 3) := by
  have h0 := rope_length_zeroPair n hn
  simp [wrapRope, rope_concat, h0, rope_split, rope_create]

theorem rope_char_wrapRope_zero (n : Nat) (hn : n + n = UINT_SIZE) :
    rope_char (wrapRope n) 0 = some 120 := by
  have h0 := rope_length_zeroPair n hn
  simp [wrapRope, rope_concat, h0, rope_char, rope_create]


theorem rope_char_exact (r : Rope) (i : Nat) (h : Exact r)
    (hi : i < (flatten r).length) : rope_char r i = (flatten r)[i]? := by
  induction r generalizing i with
  | leaf data length =>
      have hlen := leafBytes_length data length h
      simp only [flatten_leaf, hlen] at hi
      cases data with
      | none => simp only [Exact, bufSize] at h; omega
      | some d => simp [rope_char, leafBytes, List.getElem?_take, hi]
  | node ll l r ihl ihr =>
      obtain ⟨hll, xl, xr⟩ := h
      simp only [flatten_node, List.length_append] at hi
      by_cases h1 : ll ≤ i
      · have hle : (flatten l).length ≤ i := by omega
        simp only [rope_char, h1, if_true, flatten_node, List.getElem?_append_right hle]
        rw [ihr (i - ll) xr (by omega), hll]
      · have hlt : i < (flatten l).length := by omega
        simp only [rope_char, h1, if_false, flatten_node, List.getElem?_append_left hlt]
        exact ihl i xl hlt

theorem split_content_wrapRope (n : Nat) (hn : n + n = UINT_SIZE) :
    WF (wrapRope n) ∧ InRange (wrapRope n) ∧ 1 ≤ rope_length (wrapRope n) ∧
      ¬ ∃ hd tl, rope_split (wrapRope n) 1 = .ok (hd, tl)
          ∧ flatten hd = (flatten (wrapRope n)).take 1
          ∧ flatten tl = (flatten (wrapRope n)).drop 1 := by
  refine ⟨wf_wrapRope _, inRange_wrapRope _ hn, ?_, ?_⟩
  · rw [rope_length_wrapRope _ hn]; decide
  · rintro ⟨hd, tl, e, e1, -⟩
    rw [rope_split_wrapRope_one _ hn] at e
    injection e with e
    injection e with eh et
    subst eh
    have hlen := congrArg List.length e1
    simp only [UINT_SIZE] at hn
    simp [flatten_zeroPair, leafBytes, flatten_wrapRope] at hlen
    omega

theorem rope_char_wrapRope (n : Nat) (hn : n + n = UINT_SIZE) :
    WF (wrapRope n) ∧ InRange (wrapRope n) ∧ 0 < rope_length (wrapRope n) ∧
      rope_char (wrapRope n) 0 = some 120 ∧ (flatten (wrapRope n))[0]? = some 0 := by
  refine ⟨wf_wrapRope _, inRange_wrapRope _ hn, ?_, rope_char_wrapRope_zero _ hn, ?_⟩
  · rw [rope_length_wrapRope _ hn]; decide
  · have hpos : 0 < n := by simp only [UINT_SIZE] at hn; omega
    rw [flatten_wrapRope, List.append_assoc,
      List.getElem?_append_left (by simpa using hpos)]
    simp [hpos]

theorem insert_content_wrapRope (n : Nat) (hn : n + n = UINT_SIZE) :
    WF (wrapRope n) ∧ InRange (wrapRope n) ∧ 1 ≤ rope_length (wrapRope n) ∧
      ¬ ∃ J, rope_insert (wrapRope n) 1 (some [33]) 1 = .ok J
          ∧ flatten J = (flatten (wrapRope n)).take 1 ++ [33]
              ++ (flatten (wrapRope n)).drop 1 := by
  refine ⟨wf_wrapRope _, inRange_wrapRope _ hn, ?_, ?_⟩
  · rw [rope_length_wrapRope _ hn]; decide
  · rintro ⟨J, e, e1⟩
    simp only [rope_insert, rope_split_wrapRope_one _ hn] at e
    simp only [gt_iff_lt, Nat.lt_one_iff, Nat.pos_of_ne_zero, if_true] at e
    injection e with e
    subst e
    obtain ⟨m, rfl⟩ : ∃ m, n = m + 2 :=
      ⟨n - 2, by simp only [UINT_SIZE] at hn; omega⟩
    have h1 := congrArg (fun l => l[1]?) e1
    simp [flatten_zeroPair, flatten_wrapRope, rope_create, leafBytes,
      List.replicate_succ] at h1

theorem delete_content_wrapRope (n : Nat) (hn : n + n = UINT_SIZE) :
    WF (wrapRope n) ∧ InRange (wrapRope n) ∧ 1 ≤ rope_length (wrapRope n) ∧
      ¬ ∃ J, rope_delete (wrapRope n) 0 1 = .ok J
          ∧ flatten J = (flatten (wrapRope n)).take 0
              ++ (flatten (wrapRope n)).drop 1 := by
  refine ⟨wf_wrapRope _, inRange_wrapRope _ hn, ?_, ?_⟩
  · rw [rope_length_wrapRope _ hn]; decide
  · rintro ⟨J, e, e1⟩
    have e2 : rope_split (.leaf (some [120, 121, 122]) 3) 1
        = .ok (.leaf (some [120, 121, 122]) 1, .leaf (some [121, 122]) 2) := rfl
    simp only [rope_delete, rope_split_wrapRope_zero _ hn, Nat.sub_zero, e2, gt_iff_lt,
      Nat.zero_lt_one, if_true] at e
    injection e with e
    subst e
    obtain ⟨m, rfl⟩ : ∃ m, n = m + 2 :=
      ⟨n - 2, by simp only [UINT_SIZE] at hn; omega⟩
    have h1 := congrArg (fun l => (120 : Byte) ∈ l) e1
    simp [flatten_zeroPair, flatten_wrapRope, leafBytes, List.replicate_succ] at h1

theorem length_sum_zeroPair (n : Nat) (hn : n + n = UINT_SIZE) :
    WF (zeroPair n) ∧ InRange (zeroPair n) ∧ rope_length (zeroPair n) = 0
      ∧ leafSum (zeroPair n) = UINT_SIZE ∧ (flatten (zeroPair n)).length = UINT_SIZE := by
  refine ⟨wf_zeroPair n, inRange_zeroPair n hn, rope_length_zeroPair n hn, ?_, ?_⟩
  · rw [leafSum_zeroPair, hn]
  · rw [flatten_zeroPair]; simpa using hn

/-- In a well-formed rope with in-range fields, `rope_length` is the sum of the
leaf lengths reduced modulo `2 ^ 32`. -/
theorem rope_length_mod (r : Rope) (h : WF r) (hr : InRange r) :
    rope_length r = leafSum r % UINT_SIZE := by
  induction r with
  | leaf data length =>
      simp only [InRange] at hr
      simp [rope_length, leafSum, Nat.mod_eq_of_lt hr]
  | node ll l r ihl ihr =>
      obtain ⟨hll, wl, wr⟩ := h
      obtain ⟨-, rl, rr⟩ := hr
      simp only [rope_length, leafSum]
      rw [hll, ihl wl rl, ihr wr rr, ← Nat.add_mod]

/-- Beyond `INT_MAX` the sum `rope_length + (-1) + 1` is negative as an `int`,
and the assertion of `rope_position` fails. -/
theorem rope_position_minus_one_large (r : Rope) (h1 : INT_MAX < (rope_length r : Int))
    (h2 : rope_length r < UINT_SIZE) : rope_position r (-1) = none := by
  simp only [INT_MAX] at h1
  simp only [UINT_SIZE] at h2
  have hu : toUnsigned (-1) = 4294967295 := by decide
  have hm : (rope_length r + 4294967295 + 1) % UINT_SIZE = rope_length r := by
    simp only [UINT_SIZE]; omega
  have hs : toSigned (rope_length r) = (rope_length r : Int) - 4294967296 := by
    simp only [toSigned, INT_MAX, UINT_SIZE]
    split_ifs <;> omega
  have hneg : ¬ (0 : Int) ≤ (rope_length r : Int) - 4294967296 := by omega
  simp [rope_position, hu, hm, hs, hneg]

/-! ## Scenarios of `test.c` -/

/-- `rope_create(0, 0)`, then `rope_insert(_, 0, "olamundo", 8)` and
`rope_insert(_, 0, "H", 1)`: the content is `Holamundo`. -/
theorem test_holamundo :
    ((rope_insert empty 0 (some [111, 108, 97, 109, 117, 110, 100, 111]) 8).bind
        (fun X => rope_insert X 0 (some [72]) 1)).map flatten
      = .ok [72, 111, 108, 97, 109, 117, 110, 100, 111] := rfl

/-- `rope_split(rope_create("word", 4), 2)`: head `wo`, tail `rd`. -/
theorem test_split_word :
    (rope_split (rope_create (some [119, 111, 114, 100]) 4) 2).map
        (fun ht => (flatten ht.1, flatten ht.2))
      = .ok ([119, 111], [114, 100]) := rfl

/-- `rope_split(helo|world, 2)`: head `he`, tail `lo|world`. -/
theorem test_split_helo_world :
    (rope_split helo_world 2).map (fun ht => (flatten ht.1, flatten ht.2))
      = .ok ([104, 101], [108, 111, 119, 111, 114, 108, 100]) := rfl

/-- `rope_char(helo|world, i)` for the nine indices of `heloworld`. -/
theorem test_rope_char_helo_world :
    (List.range 9).map (rope_char helo_world)
      = [104, 101, 108, 111, 119, 111, 114, 108, 100].map some := by decide

/-- `helo|world` and its split at 2, as the collector of `test.c` sees them:
`he` and `lo|world`. -/
theorem test_chunks_helo_world :
    chunks helo_world = [[104, 101, 108, 111], [119, 111, 114, 108, 100]]
      ∧ (rope_split helo_world 2).map (fun ht => (chunks ht.1, chunks ht.2))
          = .ok ([[104, 101]], [[108, 111], [119, 111, 114, 108, 100]]) :=
  ⟨by decide, rfl⟩

/-! ## Claims on content, lengths and positions -/

/-- C1, as stated, fails: `bigRope` is well formed and `1 ≤ rope_length`, yet
`rope_split(bigRope, 1)` does not leave the first byte of the content in the
head: the cached `left_length` of the root has wrapped to 0, so the cut is
made inside the leaf `xyz`, 4 GiB further right. -/
theorem split_content_counterexample :
    WF bigRope ∧ InRange bigRope ∧ 1 ≤ rope_length bigRope ∧
      ¬ ∃ hd tl, rope_split bigRope 1 = .ok (hd, tl)
          ∧ flatten hd = (flatten bigRope).take 1
          ∧ flatten tl = (flatten bigRope).drop 1 :=
  split_content_wrapRope 2147483648 rfl

/-- C1 (amended): split content law.  For every well-formed rope `R` whose
content is shorter than `2 ^ 32` bytes and every `p ≤ rope_length R`,
`rope_split(R, p)` succeeds, the content of the mutated `R` is the first `p`
bytes of the original content and the content of the returned tail is the
original content from byte `p` on; for `p = 0` the head is empty and the tail
holds the whole content. -/
theorem split_content (R : Rope) (p : Nat) (h : WF R)
    (hb : (flatten R).length < UINT_SIZE) (hp : p ≤ rope_length R) :
    ∃ hd tl, rope_split R p = .ok (hd, tl)
      ∧ flatten hd = (flatten R).take p
      ∧ flatten tl = (flatten R).drop p
      ∧ (p = 0 → flatten hd = [] ∧ flatten tl = flatten R) := by
  obtain ⟨hlen, hx⟩ := exact_of_wf R h hb
  obtain ⟨hd, tl, e, e1, e2⟩ := rope_split_exact R p hx (by omega)
  refine ⟨hd, tl, e, e1, e2, ?_⟩
  intro h0
  subst h0
  simp [e1, e2]

/-- Instance of C1 (amended) on `helo|world` split at 2, as in `test.c`. -/
theorem split_content_witness :
    WF helo_world ∧ (flatten helo_world).length < UINT_SIZE ∧ 2 ≤ rope_length helo_world ∧
      ∃ hd tl, rope_split helo_world 2 = .ok (hd, tl)
        ∧ flatten hd = (flatten helo_world).take 2
        ∧ flatten tl = (flatten helo_world).drop 2
        ∧ (2 = 0 → flatten hd = [] ∧ flatten tl = flatten helo_world) :=
  ⟨by decide, by decide, by decide,
    split_content helo_world 2 (by decide) (by decide) (by decide)⟩

/-- C2, as stated, fails: `bigRope` is well formed and `1 ≤ rope_length`,
but `rope_insert(bigRope, 1, "!", 1)` places the new byte 4 GiB further right,
inside the leaf `xyz`, not after byte 0 of the content. -/
theorem insert_content_counterexample :
    WF bigRope ∧ InRange bigRope ∧ 1 ≤ rope_length bigRope ∧
      ¬ ∃ J, rope_insert bigRope 1 (some [33]) 1 = .ok J
          ∧ flatten J = (flatten bigRope).take 1 ++ [33] ++ (flatten bigRope).drop 1 :=
  insert_content_wrapRope 2147483648 rfl

/-- C2 (amended): insert content law.  For every well-formed rope `R` whose
content is shorter than `2 ^ 32` bytes, every `p ≤ rope_length R` and every
non-empty byte string `S`, `rope_insert(R, p, S, |S|)` succeeds and its
flattened content is `flatten(R)[0:p] ++ S ++ flatten(R)[p:]`. -/
theorem insert_content (R : Rope) (p : Nat) (S : List Byte) (h : WF R)
    (hb : (flatten R).length < UINT_SIZE) (hp : p ≤ rope_length R) (hS : S ≠ []) :
    ∃ J, rope_insert R p (some S) S.length = .ok J
      ∧ flatten J = (flatten R).take p ++ S ++ (flatten R).drop p := by
  obtain ⟨hlen, hx⟩ := exact_of_wf R h hb
  obtain ⟨hd, tl, e, e1, e2⟩ := rope_split_exact R p hx (by omega)
  have hpos : 0 < S.length := List.length_pos.mpr hS
  refine ⟨rope_concat hd (rope_concat (rope_create (some S) S.length) tl), ?_, ?_⟩
  · simp [rope_insert, hpos, e]
  · simp [e1, e2, rope_create, leafBytes]

/-- Instance of C2 (amended): `rope_insert(helo|world, 3, "l", 1)`, as in `test.c`. -/
theorem insert_content_witness :
    WF helo_world ∧ (flatten helo_world).length < UINT_SIZE ∧ 3 ≤ rope_length helo_world
      ∧ [108] ≠ ([] : List Byte) ∧
      ∃ J, rope_insert helo_world 3 (some [108]) [108].length = .ok J
        ∧ flatten J = (flatten helo_world).take 3 ++ [108] ++ (flatten helo_world).drop 3 :=
  ⟨by decide, by decide, by decide, by decide,
    insert_content helo_world 3 [108] (by decide) (by decide) (by decide) (by decide)⟩

/-- C3, as stated, fails: `bigRope` is well formed and `0 < 1 ≤ rope_length`,
but `rope_delete(bigRope, 0, 1)` removes the byte `x` of the last leaf and
keeps byte 0 of the content. -/
theorem delete_content_counterexample :
    WF bigRope ∧ InRange bigRope ∧ 1 ≤ rope_length bigRope ∧
      ¬ ∃ J, rope_delete bigRope 0 1 = .ok J
          ∧ flatten J = (flatten bigRope).take 0 ++ (flatten bigRope).drop 1 :=
  delete_content_wrapRope 2147483648 rfl

/-- C3 (amended): delete content law.  For every well-formed rope `R` whose
content is shorter than `2 ^ 32` bytes and all positions with
`from < to ≤ rope_length R`, `rope_delete(R, from, to)` succeeds and its
flattened content is `flatten(R)[0:from] ++ flatten(R)[to:]`. -/
theorem delete_content (R : Rope) (from_position to_position : Nat) (h : WF R)
    (hb : (flatten R).length < UINT_SIZE) (hft : from_position < to_position)
    (hto : to_position ≤ rope_length R) :
    ∃ J, rope_delete R from_position to_position = .ok J
      ∧ flatten J = (flatten R).take from_position ++ (flatten R).drop to_position := by
  obtain ⟨hlen, hx⟩ := exact_of_wf R h hb
  have hr := inRange_of_wf R h hb
  obtain ⟨hd, mid, e, -, wmid, -, -, -, -, -⟩ :=
    rope_split_wf R from_position h hr (by omega)
  obtain ⟨hd2, mid2, e', e1, e2⟩ := rope_split_exact R from_position hx (by omega)
  rw [e] at e'
  injection e' with e'
  injection e' with eh em
  subst eh
  subst em
  have hml : (flatten mid).length = (flatten R).length - from_position := by
    rw [e2, List.length_drop]
  obtain ⟨-, xm⟩ := exact_of_wf mid wmid (by omega)
  obtain ⟨dl, tl, e3, -, e5⟩ :=
    rope_split_exact mid (to_position - from_position) xm (by omega)
  refine ⟨rope_concat hd tl, ?_, ?_⟩
  · simp [rope_delete, hft, e, e3]
  · have : from_position + (to_position - from_position) = to_position := by omega
    simp [e1, e5, e2, List.drop_drop, this]

/-- Instance of C3 (amended): `rope_delete(helo|world, 2, 6)`. -/
theorem delete_content_witness :
    WF helo_world ∧ (flatten helo_world).length < UINT_SIZE ∧ 2 < 6
      ∧ 6 ≤ rope_length helo_world ∧
      ∃ J, rope_delete helo_world 2 6 = .ok J
        ∧ flatten J = (flatten helo_world).take 2 ++ (flatten helo_world).drop 6 :=
  ⟨by decide, by decide, by decide, by decide,
    delete_content helo_world 2 6 (by decide) (by decide) (by decide) (by decide)⟩

/-- C4, as stated, fails: `bigRope` is well formed and `0 < rope_length`, but
`rope_char(bigRope, 0)` is `x` (120), read from the last leaf, while byte 0 of
the flattened content is a zero byte of the first leaf. -/
theorem rope_char_counterexample :
    WF bigRope ∧ InRange bigRope ∧ 0 < rope_length bigRope ∧
      rope_char bigRope 0 = some 120 ∧ (flatten bigRope)[0]? = some 0 :=
  rope_char_wrapRope 2147483648 rfl

/-- C4 (amended): char-at consistency.  For every well-formed rope `R` whose
content is shorter than `2 ^ 32` bytes and every `i < rope_length R`,
`rope_char(R, i)` returns the `i`-th byte of the flattened content. -/
theorem rope_char_flatten (R : Rope) (i : Nat) (h : WF R)
    (hb : (flatten R).length < UINT_SIZE) (hi : i < rope_length R) :
    ∃ b, rope_char R i = some b ∧ (flatten R)[i]? = some b := by
  obtain ⟨hlen, hx⟩ := exact_of_wf R h hb
  have hi2 : i < (flatten R).length := by omega
  refine ⟨(flatten R)[i], ?_, List.getElem?_eq_getElem hi2⟩
  rw [rope_char_exact R i hx hi2]
  exact List.getElem?_eq_getElem hi2

/-- Instance of C4 (amended) on `he_world`, a rope with a truncated leaf and
an empty leaf: index 2 is the first byte of `world`. -/
theorem rope_char_flatten_witness :
    WF he_world ∧ (flatten he_world).length < UINT_SIZE ∧ 2 < rope_length he_world
      ∧ ∃ b, rope_char he_world 2 = some b ∧ (flatten he_world)[2]? = some b :=
  ⟨by decide, by decide, by decide,
    rope_char_flatten he_world 2 (by decide) (by decide) (by decide)⟩

/-- C5: round-trip split/concat.  For every well-formed rope `R` (its fields
being `unsigned int` values) and every `p ≤ rope_length R`, `rope_split(R, p)`
succeeds and `J = rope_concat(R, tail)` has the flattened content and the
`rope_length` that `R` had before the split. -/
theorem split_concat_roundtrip (R : Rope) (p : Nat) (h : WF R) (hr : InRange R)
    (hp : p ≤ rope_length R) :
    ∃ hd tl, rope_split R p = .ok (hd, tl)
      ∧ flatten (rope_concat hd tl) = flatten R
      ∧ rope_length (rope_concat hd tl) = rope_length R := by
  obtain ⟨hd, tl, e, -, -, -, -, l1, l2, f⟩ := rope_split_wf R p h hr hp
  have hlt := rope_length_lt R hr
  refine ⟨hd, tl, e, by simpa using f, ?_⟩
  simp only [rope_concat, rope_length, l1, l2]
  rw [Nat.add_sub_cancel' hp]
  exact Nat.mod_eq_of_lt hlt

/-- Instance of C5 on `helo|world` split at 2. -/
theorem split_concat_roundtrip_witness :
    WF helo_world ∧ InRange helo_world ∧ 2 ≤ rope_length helo_world ∧
      ∃ hd tl, rope_split helo_world 2 = .ok (hd, tl)
        ∧ flatten (rope_concat hd tl) = flatten helo_world
        ∧ rope_length (rope_concat hd tl) = rope_length helo_world :=
  ⟨by decide, by decide, by decide,
    split_concat_roundtrip helo_world 2 (by decide) (by decide) (by decide)⟩

/-- C6: length additivity.  For all ropes `R1` and `R2` with
`rope_length R1 + rope_length R2 < 2 ^ 32`,
`rope_length(rope_concat(R1, R2)) = rope_length R1 + rope_length R2`. -/
theorem length_additivity (R1 R2 : Rope)
    (h : rope_length R1 + rope_length R2 < UINT_SIZE) :
    rope_length (rope_concat R1 R2) = rope_length R1 + rope_length R2 := by
  simp only [rope_concat, rope_length]
  exact Nat.mod_eq_of_lt h

/-- Instance of C6: `helo|world` joined with the leaf `!`. -/
theorem length_additivity_witness :
    rope_length helo_world + rope_length (rope_create (some [33]) 1) < UINT_SIZE ∧
      rope_length (rope_concat helo_world (rope_create (some [33]) 1))
        = rope_length helo_world + rope_length (rope_create (some [33]) 1) :=
  ⟨by decide, length_additivity helo_world (rope_create (some [33]) 1) (by decide)⟩

/-- C7: split length postcondition.  For every well-formed rope `R` (its
fields being `unsigned int` values) with `n = rope_length R` and every
`p ≤ n`, `rope_split(R, p)` succeeds, and afterwards `rope_length R = p` and
`rope_length tail = n - p`. -/
theorem split_length (R : Rope) (p : Nat) (h : WF R) (hr : InRange R)
    (hp : p ≤ rope_length R) :
    ∃ hd tl, rope_split R p = .ok (hd, tl)
      ∧ rope_length hd = p ∧ rope_length tl = rope_length R - p := by
  obtain ⟨hd, tl, e, -, -, -, -, l1, l2, -⟩ := rope_split_wf R p h hr hp
  exact ⟨hd, tl, e, l1, l2⟩

/-- Instance of C7 on `helo|world` split at 6. -/
theorem split_length_witness :
    WF helo_world ∧ InRange helo_world ∧ 6 ≤ rope_length helo_world ∧
      ∃ hd tl, rope_split helo_world 6 = .ok (hd, tl)
        ∧ rope_length hd = 6 ∧ rope_length tl = rope_length helo_world - 6 :=
  ⟨by decide, by decide, by decide,
    split_length helo_world 6 (by decide) (by decide) (by decide)⟩

/-- C8, as stated, fails: on the one-byte rope `rope_create("a", 1)`,
`rope_position(R, -1)` is 1, the length of the rope, and not
`rope_length R - 1 = 0`. -/
theorem rope_position_minus_one_counterexample :
    1 ≤ rope_length (rope_create (some [97]) 1)
      ∧ rope_position (rope_create (some [97]) 1) (-1) = some 1
      ∧ rope_position (rope_create (some [97]) 1) (-1)
          ≠ some (rope_length (rope_create (some [97]) 1) - 1) := by
  decide

/-- C8 (amended): for every rope `R` with `rope_length R ≤ INT_MAX`,
`rope_position(R, -1)` returns `rope_length R`: `-1` denotes the end of the
rope, the last valid position for a split or an insertion. -/
theorem rope_position_minus_one (R : Rope) (h : (rope_length R : Int) ≤ INT_MAX) :
    rope_position R (-1) = some (rope_length R) := by
  simp only [INT_MAX] at h
  have hu : toUnsigned (-1) = 4294967295 := by decide
  have hm : (rope_length R + 4294967295 + 1) % UINT_SIZE = rope_length R := by
    simp only [UINT_SIZE]; omega
  have hs : toSigned (rope_length R) = (rope_length R : Int) := by
    simp [toSigned, INT_MAX, h]
  have hback : toUnsigned (rope_length R : Int) = rope_length R := by
    simp only [toUnsigned, UINT_SIZE]; omega
  simp [rope_position, hu, hm, hs, hback]

/-- Instance of C8 (amended) on `helo|world`. -/
theorem rope_position_minus_one_witness :
    (rope_length helo_world : Int) ≤ INT_MAX
      ∧ rope_position helo_world (-1) = some (rope_length helo_world) :=
  ⟨by decide, rope_position_minus_one helo_world (by decide)⟩

/-- C9: position normalization as a function.  For every rope `R` with
`rope_length R ≤ INT_MAX` and every `int` value `p`: if `p ≥ 0` the result is
`p`, with no check against the length; if `p < 0` and
`rope_length R + p + 1 ≥ 0` the result is `rope_length R + p + 1`; and the
assertion fails exactly when `p < 0` and `rope_length R + p + 1 < 0`. -/
theorem rope_position_spec (R : Rope) (p : Int) (h : (rope_length R : Int) ≤ INT_MAX)
    (hlo : INT_MIN ≤ p) (hhi : p ≤ INT_MAX) :
    (0 ≤ p → rope_position R p = some p.toNat)
      ∧ (p < 0 → 0 ≤ (rope_length R : Int) + p + 1 →
          rope_position R p = some ((rope_length R : Int) + p + 1).toNat)
      ∧ (rope_position R p = none ↔ p < 0 ∧ (rope_length R : Int) + p + 1 < 0) := by
  simp only [INT_MAX, INT_MIN] at h hlo hhi
  by_cases hp : 0 ≤ p
  · have hu : toUnsigned p = p.toNat := by
      simp only [toUnsigned, UINT_SIZE]; omega
    refine ⟨fun _ => by simp [rope_position, hp, hu], fun hn => by omega, ?_⟩
    simp [rope_position, hp]
  · have hneg : p < 0 := by omega
    have hu : (toUnsigned p : Int) = p + 4294967296 := by
      simp only [toUnsigned, UINT_SIZE]; omega
    by_cases hs : 0 ≤ (rope_length R : Int) + p + 1
    · have hm : (rope_length R + toUnsigned p + 1) % UINT_SIZE
          = ((rope_length R : Int) + p + 1).toNat := by
        simp only [UINT_SIZE]; omega
      have hsig : toSigned (((rope_length R : Int) + p + 1).toNat)
          = (rope_length R : Int) + p + 1 := by
        simp only [toSigned, INT_MAX, UINT_SIZE]
        split_ifs <;> omega
      have hback : toUnsigned ((rope_length R : Int) + p + 1)
          = ((rope_length R : Int) + p + 1).toNat := by
        simp only [toUnsigned, UINT_SIZE]; omega
      have hval : rope_position R p = some ((rope_length R : Int) + p + 1).toNat := by
        simp [rope_position, hp, hm, hsig, hs, hback]
      refine ⟨fun h0 => absurd h0 hp, fun _ _ => hval, ?_⟩
      rw [hval]
      constructor
      · intro hc; cases hc
      · rintro ⟨-, hc⟩; omega
    · have hm : ((rope_length R + toUnsigned p + 1) % UINT_SIZE : Nat)
          = ((rope_length R : Int) + p + 1 + 4294967296).toNat := by
        simp only [UINT_SIZE]; omega
      have hsig : toSigned (((rope_length R : Int) + p + 1 + 4294967296).toNat)
          = (rope_length R : Int) + p + 1 := by
        simp only [toSigned, INT_MAX, UINT_SIZE]
        split_ifs <;> omega
      have hval : rope_position R p = none := by
        simp [rope_position, hp, hm, hsig, hs]
      refine ⟨fun h0 => absurd h0 hp, fun _ h1 => absurd h1 hs, ?_⟩
      rw [hval]
      exact ⟨fun _ => ⟨hneg, by omega⟩, fun _ => rfl⟩

/-- Instance of C9 on `helo|world` at position -3. -/
theorem rope_position_spec_witness :
    (rope_length helo_world : Int) ≤ INT_MAX ∧ INT_MIN ≤ (-3 : Int) ∧ (-3 : Int) ≤ INT_MAX ∧
      ((0 ≤ (-3 : Int) → rope_position helo_world (-3) = some (-3 : Int).toNat)
      ∧ ((-3 : Int) < 0 → 0 ≤ (rope_length helo_world : Int) + (-3) + 1 →
          rope_position helo_world (-3)
            = some ((rope_length helo_world : Int) + (-3) + 1).toNat)
      ∧ (rope_position helo_world (-3) = none
          ↔ (-3 : Int) < 0 ∧ (rope_length helo_world : Int) + (-3) + 1 < 0)) :=
  ⟨by decide, by decide, by decide,
    rope_position_spec helo_world (-3) (by decide) (by decide) (by decide)⟩

/-- C10, as stated, fails: `bigPair` (two leaves of `2 ^ 31` bytes joined by
`rope_concat`) is well formed, its leaf lengths add up to `2 ^ 32` bytes of
content, and `rope_length(bigPair)` is 0. -/
theorem rope_length_sum_counterexample :
    WF bigPair ∧ InRange bigPair ∧ rope_length bigPair = 0
      ∧ leafSum bigPair = UINT_SIZE ∧ (flatten bigPair).length = UINT_SIZE :=
  length_sum_zeroPair 2147483648 rfl

/-- C10 (amended): for every well-formed rope `R` (its fields being
`unsigned int` values), `rope_length R` is the sum of the recorded lengths of
the leaves reduced modulo `2 ^ 32`; that sum is the number of bytes of the
flattened content; and when it is below `2 ^ 32`, `rope_length R` equals it. -/
theorem rope_length_sum (R : Rope) (h : WF R) (hr : InRange R) :
    rope_length R = leafSum R % UINT_SIZE
      ∧ leafSum R = (flatten R).length
      ∧ (leafSum R < UINT_SIZE → rope_length R = leafSum R) := by
  have hm := rope_length_mod R h hr
  refine ⟨hm, leafSum_eq_flatten_length R h, fun hlt => ?_⟩
  rw [hm, Nat.mod_eq_of_lt hlt]

/-- Instance of C10 (amended) on `helo|world`. -/
theorem rope_length_sum_witness :
    WF helo_world ∧ InRange helo_world ∧
      (rope_length helo_world = leafSum helo_world % UINT_SIZE
      ∧ leafSum helo_world = (flatten helo_world).length
      ∧ (leafSum helo_world < UINT_SIZE → rope_length helo_world = leafSum helo_world)) :=
  ⟨by decide, by decide, rope_length_sum helo_world (by decide) (by decide)⟩


/-! ## Iteration, chunks and failing calls -/

theorem rope_iter_foldl {σ : Type} (r : Rope) (cb : Option (List Byte) → Nat → σ → σ)
    (ctx : σ) : rope_iter r cb ctx = iterate_spec r cb ctx := by
  induction r generalizing ctx with
  | leaf data length => simp [rope_iter, iterate_spec, leavesInOrder]
  | node ll l r ihl ihr =>
      simp only [rope_iter, ihl, ihr]
      simp [iterate_spec, leavesInOrder]

theorem foldl_record (ls log : List (Option (List Byte) × Nat)) :
    ls.foldl (fun acc lf => record_cb lf.1 lf.2 acc) log = log ++ ls := by
  induction ls generalizing log with
  | nil => simp
  | cons a t ih => rw [List.foldl_cons, ih]; simp [record_cb]

theorem foldl_chunks (ls : List (Option (List Byte) × Nat)) (acc : List (List Byte)) :
    ls.foldl (fun acc lf => if lf.2 ≠ 0 then acc ++ [leafBytes lf.1 lf.2] else acc) acc
      = acc ++ ls.foldl
          (fun acc lf => if lf.2 ≠ 0 then acc ++ [leafBytes lf.1 lf.2] else acc) [] := by
  induction ls generalizing acc with
  | nil => simp
  | cons a t ih =>
      simp only [List.foldl_cons]
      rw [ih, ih (if a.2 ≠ 0 then [] ++ [leafBytes a.1 a.2] else [])]
      split_ifs <;> simp

@[simp] theorem chunks_leaf (data : Option (List Byte)) (length : Nat) :
    chunks (.leaf data length) = if length ≠ 0 then [leafBytes data length] else [] := by
  simp [chunks, rope_iter]

@[simp] theorem chunks_node (ll : Nat) (l r : Rope) :
    chunks (.node ll l r) = chunks l ++ chunks r := by
  simp only [chunks, rope_iter_foldl, iterate_spec, leavesInOrder, List.foldl_append]
  rw [foldl_chunks]

@[simp] theorem chunks_empty : chunks empty = [] := by
  simp [empty, rope_create]

@[simp] theorem chunks_concat (l r : Rope) :
    chunks (rope_concat l r) = chunks l ++ chunks r := by
  simp [rope_concat]

/-- The chunks, laid end to end, are the flattened content. -/
theorem chunks_flatten (r : Rope) : (chunks r).flatten = flatten r := by
  induction r with
  | leaf data length =>
      by_cases h : length = 0
      · simp [h, leafBytes]; cases data <;> simp
      · simp [h]
  | node ll l r ihl ihr => simp [ihl, ihr]

/-- With exact cached lengths, a split beyond the content descends through
right children only, reaches the assertion of the leaf case, and leaves the
tree as it was. -/
theorem rope_split_fail (r : Rope) (p : Nat) (h : Exact r)
    (hp : (flatten r).length < p) :
    rope_split r p = .error r ∧ ∀ d ∈ split_path r p, d = Dir.right := by
  induction r generalizing p with
  | leaf data length =>
      have hlen := leafBytes_length data length h
      simp only [flatten_leaf, hlen] at hp
      have hn : ¬ p ≤ length := by omega
      simp [rope_split, hn, split_path]
  | node ll l r ihl ihr =>
      obtain ⟨hll, -, xr⟩ := h
      simp only [flatten_node, List.length_append] at hp
      have h1 : ll < p := by omega
      obtain ⟨e, hpath⟩ := ihr (p - ll) xr (by omega)
      refine ⟨by simp [rope_split, h1, e], ?_⟩
      intro d hd
      simp only [split_path, h1, if_true, List.mem_cons] at hd
      rcases hd with hd | hd
      · exact hd
      · exact hpath d hd

/-- The four ways a call of `rope_delete` on a well-formed rope of less than
`2 ^ 32` bytes can end. -/
theorem rope_delete_cases (R : Rope) (f t : Nat) (h : WF R)
    (hb : (flatten R).length < UINT_SIZE) :
    (t ≤ f → rope_delete R f t = .error R)
      ∧ (f < t → rope_length R < f → rope_delete R f t = .error R)
      ∧ (f < t → f ≤ rope_length R → rope_length R < t →
          ∃ hd mid, rope_split R f = .ok (hd, mid) ∧ rope_delete R f t = .error hd
            ∧ flatten hd = (flatten R).take f)
      ∧ (f < t → t ≤ rope_length R → ∃ J, rope_delete R f t = .ok J) := by
  obtain ⟨hlen, hx⟩ := exact_of_wf R h hb
  have hr := inRange_of_wf R h hb
  refine ⟨?_, ?_, ?_, ?_⟩
  · intro hle
    have : ¬ t > f := by omega
    simp [rope_delete, this]
  · intro hft hlt
    obtain ⟨e, -⟩ := rope_split_fail R f hx (by omega)
    simp [rope_delete, hft, e]
  · intro hft hf ht
    obtain ⟨hd, mid, e, -, wmid, -, -, -, -, -⟩ := rope_split_wf R f h hr hf
    obtain ⟨hd2, mid2, e', e1, e2⟩ := rope_split_exact R f hx (by omega)
    rw [e] at e'
    injection e' with e'
    injection e' with eh em
    subst eh
    subst em
    have hml : (flatten mid).length = (flatten R).length - f := by
      rw [e2, List.length_drop]
    obtain ⟨-, xm⟩ := exact_of_wf mid wmid (by omega)
    obtain ⟨e3, -⟩ := rope_split_fail mid (t - f) xm (by omega)
    exact ⟨hd, mid, e, by simp [rope_delete, hft, e, e3], e1⟩
  · intro hft ht
    obtain ⟨hd, mid, e, -, wmid, -, rmid, -, lmid, -⟩ :=
      rope_split_wf R f h hr (by omega)
    obtain ⟨dl, tl, e3, -⟩ := rope_split_wf mid (t - f) wmid rmid (by omega)
    exact ⟨rope_concat hd tl, by simp [rope_delete, hft, e, e3]⟩

/-- The ways a call of `rope_insert` with a non-null `data` on a well-formed
rope of less than `2 ^ 32` bytes can end. -/
theorem rope_insert_cases (R : Rope) (p : Nat) (d : List Byte) (n : Nat) (h : WF R)
    (hb : (flatten R).length < UINT_SIZE) :
    (n = 0 → rope_insert R p (some d) n = .error R)
      ∧ (0 < n → rope_length R < p → rope_insert R p (some d) n = .error R)
      ∧ (0 < n → p ≤ rope_length R → ∃ J, rope_insert R p (some d) n = .ok J) := by
  obtain ⟨hlen, hx⟩ := exact_of_wf R h hb
  have hr := inRange_of_wf R h hb
  refine ⟨?_, ?_, ?_⟩
  · intro h0
    simp [rope_insert, h0]
  · intro hn hlt
    obtain ⟨e, -⟩ := rope_split_fail R p hx (by omega)
    simp [rope_insert, hn, e]
  · intro hn hp
    obtain ⟨hd, tl, e, -⟩ := rope_split_wf R p h hr hp
    exact ⟨rope_concat hd (rope_concat (rope_create (some d) n) tl),
      by simp [rope_insert, hn, e]⟩

theorem rope_split_zeroPair_one (n : Nat) (hn : n + n = UINT_SIZE) :
    ∃ hd tl, rope_split (zeroPair n) 1 = .ok (hd, tl) := by
  simp only [UINT_SIZE] at hn
  have h1 : ¬ n < 1 := by omega
  have h2 : ¬ n = 1 := by omega
  have h3 : 1 ≤ n := by omega
  simp [zeroPair, zeroLeaf, rope_concat, rope_create, rope_length, rope_split, h1, h2, h3]

theorem rope_insert_zeroPair_one (n : Nat) (hn : n + n = UINT_SIZE) :
    ∃ J, rope_insert (zeroPair n) 1 (some [33]) 1 = .ok J := by
  obtain ⟨hd, tl, e⟩ := rope_split_zeroPair_one n hn
  exact ⟨rope_concat hd (rope_concat (rope_create (some [33]) 1) tl),
    by simp [rope_insert, e]⟩

theorem rope_delete_zeroPair (n : Nat) (hn : n + n = UINT_SIZE) :
    ∃ J, rope_delete (zeroPair n) 0 1 = .ok J := by
  simp only [UINT_SIZE] at hn
  have h0 : ¬ n = 0 := by omega
  have h1 : ¬ n < 1 := by omega
  have h2 : ¬ n = 1 := by omega
  have h3 : 1 ≤ n := by omega
  simp [rope_delete, zeroPair, zeroLeaf, rope_concat, rope_create, rope_length,
    rope_split, offset, h0, h1, h2, h3]

theorem split_rejects_zeroPair (n : Nat) (hn : n + n = UINT_SIZE) :
    WF (zeroPair n) ∧ InRange (zeroPair n) ∧ rope_length (zeroPair n) < 1
      ∧ ∃ hd tl, rope_split (zeroPair n) 1 = .ok (hd, tl) :=
  ⟨wf_zeroPair n, inRange_zeroPair n hn, by rw [rope_length_zeroPair n hn]; decide,
    rope_split_zeroPair_one n hn⟩

theorem delete_rejects_zeroPair (n : Nat) (hn : n + n = UINT_SIZE) :
    WF (zeroPair n) ∧ InRange (zeroPair n) ∧ rope_length (zeroPair n) < 1
      ∧ ∃ J, rope_delete (zeroPair n) 0 1 = .ok J :=
  ⟨wf_zeroPair n, inRange_zeroPair n hn, by rw [rope_length_zeroPair n hn]; decide,
    rope_delete_zeroPair n hn⟩

theorem insert_rejects_zeroPair (n : Nat) (hn : n + n = UINT_SIZE) :
    WF (zeroPair n) ∧ InRange (zeroPair n) ∧ rope_length (zeroPair n) < 1
      ∧ ∃ J, rope_insert (zeroPair n) 1 (some [33]) 1 = .ok J :=
  ⟨wf_zeroPair n, inRange_zeroPair n hn, by rw [rope_length_zeroPair n hn]; decide,
    rope_insert_zeroPair_one n hn⟩

theorem chunks_rope_create_offset (data : Option (List Byte)) (length p : Nat)
    (h : length ≤ bufSize data) :
    chunks (rope_create (offset data p) (length - p))
      = if length - p ≠ 0 then [(leafBytes data length).drop p] else [] := by
  cases data with
  | none =>
      simp only [bufSize] at h
      have : length - p = 0 := by omega
      simp [offset, rope_create, this]
  | some d => simp [offset, rope_create, leafBytes, List.drop_take, List.take_take]

theorem length_flatten_take_le (l : List (List Byte)) (k : Nat) :
    (l.take k).flatten.length ≤ l.flatten.length := by
  conv_rhs => rw [← List.take_append_drop k l]
  simp only [List.flatten_append, List.length_append]
  omega

/-- The total size of a prefix of the chunk list is a boundary. -/
theorem isBoundary_prefix (pre post : List (List Byte)) :
    isBoundary (pre ++ post) pre.flatten.length := by
  simp only [isBoundary, List.mem_map, List.mem_range]
  exact ⟨pre.length, by simp; omega, by simp⟩

/-- An offset strictly inside a chunk is not a boundary. -/
theorem not_isBoundary_inside (pre post : List (List Byte)) (c : List Byte) (p : Nat)
    (h1 : pre.flatten.length < p) (h2 : p < pre.flatten.length + c.length) :
    ¬ isBoundary (pre ++ c :: post) p := by
  simp only [isBoundary, List.mem_map, List.mem_range]
  rintro ⟨k, -, hk⟩
  by_cases hle : k ≤ pre.length
  · rw [List.take_append_of_le_length hle] at hk
    have := length_flatten_take_le pre k
    omega
  · have hk1 : k - pre.length = (k - pre.length - 1) + 1 := by omega
    rw [List.take_append_eq_append_take, List.take_of_length_le (by omega), hk1,
      List.take_succ_cons] at hk
    simp only [List.flatten_append, List.flatten_cons, List.length_append] at hk
    omega

theorem pieces_ne_nil (c : List Byte) (k : Nat) (h1 : 0 < k) (h2 : k < c.length) :
    c.take k ≠ [] ∧ c.drop k ≠ [] := by
  constructor
  · intro h
    have := congrArg List.length h
    rw [List.length_take, List.length_nil] at this
    omega
  · intro h
    have := congrArg List.length h
    rw [List.length_drop, List.length_nil] at this
    omega

/-- With exact cached lengths, a split inside the content either cuts no
chunk or cuts exactly the chunk that contains offset `p`. -/
theorem rope_split_chunks (r : Rope) (p : Nat) (h : Exact r)
    (hp : p ≤ (flatten r).length) :
    ∃ hd tl, rope_split r p = .ok (hd, tl)
      ∧ (chunks hd ++ chunks tl = chunks r
          ∨ cutInside (chunks r) (chunks hd) (chunks tl) p) := by
  induction r generalizing p with
  | leaf data length =>
      have hlen := leafBytes_length data length h
      simp only [flatten_leaf, hlen] at hp
      have e0 : rope_split (.leaf data length) p
          = .ok (.leaf data p, rope_create (offset data p) (length - p)) := by
        simp [rope_split, hp]
      refine ⟨_, _, e0, ?_⟩
      rw [chunks_rope_create_offset data length p h]
      by_cases h0 : p = 0
      · left
        subst h0
        simp
      · by_cases h1 : p = length
        · left
          subst h1
          simp [h0]
        · right
          have hlt : p < length := by omega
          have hne : length ≠ 0 := by omega
          have hsub : length - p ≠ 0 := by omega
          obtain ⟨n1, n2⟩ :=
            pieces_ne_nil (leafBytes data length) p (by omega) (by omega)
          refine ⟨[], leafBytes data length, [], ?_, ?_, ?_, ?_, ?_, ?_, ?_⟩
          · simp [hne]
          · simp; omega
          · simp [hlen, hlt]
          · simpa using n1
          · simpa using n2
          · simp [h0, leaf_split_head data length p hp]
          · simp [hsub]
  | node ll l r ihl ihr =>
      obtain ⟨hll, xl, xr⟩ := h
      simp only [flatten_node, List.length_append] at hp
      by_cases h1 : ll < p
      · obtain ⟨hd, tl, e, hc⟩ := ihr (p - ll) xr (by omega)
        have e0 : rope_split (.node ll l r) p = .ok (.node ll l hd, tl) := by
          simp [rope_split, h1, e]
        refine ⟨_, _, e0, ?_⟩
        rcases hc with hc | ⟨pre, c, post, a1, a2, a3, a4, a5, a6, a7⟩
        · left
          simp [← hc]
        · right
          have hfl : (chunks l).flatten.length = ll := by rw [chunks_flatten, hll]
          have hk : p - ((chunks l).flatten.length + pre.flatten.length)
              = p - ll - pre.flatten.length := by omega
          refine ⟨chunks l ++ pre, c, post, ?_, ?_, ?_, ?_, ?_, ?_, ?_⟩
          · simp [a1]
          · simp only [List.flatten_append, List.length_append]; omega
          · simp only [List.flatten_append, List.length_append]; omega
          · simpa only [List.flatten_append, List.length_append, hk] using a4
          · simpa only [List.flatten_append, List.length_append, hk] using a5
          · simp only [chunks_node, a6, List.flatten_append, List.length_append, hk,
              List.append_assoc]
          · simp only [a7, List.flatten_append, List.length_append, hk]
      · by_cases h2 : ll = p
        · have e0 : rope_split (.node ll l r) p = .ok (.node p l empty, r) := by
            simp [rope_split, h2]
          exact ⟨_, _, e0, Or.inl (by simp)⟩
        · obtain ⟨hd, tl, e, hc⟩ := ihl p xl (by omega)
          have e0 : rope_split (.node ll l r) p
              = .ok (.node p hd empty, rope_concat tl r) := by
            simp [rope_split, h1, h2, e]
          refine ⟨_, _, e0, ?_⟩
          rcases hc with hc | ⟨pre, c, post, a1, a2, a3, a4, a5, a6, a7⟩
          · left
            simp [← hc]
          · right
            refine ⟨pre, c, post ++ chunks r, ?_, a2, a3, a4, a5, ?_, ?_⟩
            · simp [a1]
            · simp [a6]
            · simp [a7]

theorem split_chunks_wrapRope (n : Nat) (hn : n + n = UINT_SIZE) :
    WF (wrapRope n) ∧ InRange (wrapRope n) ∧ 1 ≤ rope_length (wrapRope n)
      ∧ ¬ isBoundary (chunks (wrapRope n)) 1
      ∧ ¬ ∃ hd tl, rope_split (wrapRope n) 1 = .ok (hd, tl)
          ∧ cutInside (chunks (wrapRope n)) (chunks hd) (chunks tl) 1 := by
  have hn2 : 2 ≤ n := by simp only [UINT_SIZE] at hn; omega
  have hne : n ≠ 0 := by omega
  refine ⟨wf_wrapRope _, inRange_wrapRope _ hn, ?_, ?_, ?_⟩
  · rw [rope_length_wrapRope _ hn]; decide
  · have hc : chunks (wrapRope n)
        = [] ++ List.replicate n 0 :: [List.replicate n 0, [120, 121, 122]] := by
      simp [wrapRope, zeroPair, zeroLeaf, rope_create, leafBytes, hne]
    rw [hc]
    exact not_isBoundary_inside [] _ _ 1 (by simp) (by simp; omega)
  · rintro ⟨hd, tl, e, pre, c, post, -, a2, -, -, -, a6, -⟩
    rw [rope_split_wrapRope_one _ hn] at e
    injection e with e
    injection e with eh et
    subst eh
    have hfl := congrArg (fun l => l.flatten.length) a6
    simp only [chunks_flatten, flatten_node, flatten_zeroPair, flatten_leaf, leafBytes,
      List.flatten_append, List.length_append, List.length_replicate, List.length_take,
      List.flatten_cons, List.flatten_nil, List.length_nil, List.length_cons] at hfl
    omega

/-- On a leaf of `n = 2 ^ 32 - 1` bytes, inserting one byte at the end works,
but the end position `n + 1` of the inserted range wraps to 0 in `unsigned int`
and the following `rope_delete` fails its first assertion. -/
theorem insert_delete_zeroLeaf (n : Nat) (hn : n + 1 = UINT_SIZE) :
    WF (zeroLeaf n) ∧ InRange (zeroLeaf n) ∧ n ≤ rope_length (zeroLeaf n)
      ∧ [33] ≠ ([] : List Byte)
      ∧ ∃ J, rope_insert (zeroLeaf n) n (some [33]) [33].length = .ok J
          ∧ rope_delete J n ((n + [33].length) % UINT_SIZE) = .error J := by
  have hw := wf_zeroLeaf n
  have hr : InRange (zeroLeaf n) := by
    simp only [zeroLeaf, rope_create, InRange]
    omega
  have hl : rope_length (zeroLeaf n) = n := by
    simp [zeroLeaf, rope_create, rope_length]
  obtain ⟨hd, tl, e, -⟩ := rope_split_wf (zeroLeaf n) n hw hr (by omega)
  have hto : (n + ([33] : List Byte).length) % UINT_SIZE = 0 := by
    simp only [List.length_singleton, hn, Nat.mod_self]
  refine ⟨hw, hr, by omega, by decide,
    rope_concat hd (rope_concat (rope_create (some [33]) [33].length) tl), ?_, ?_⟩
  · simp [rope_insert, e]
  · rw [hto]
    simp [rope_delete]

/-! ## Claims on rejected calls, invariants, chunks and iteration -/

/-- C11, as stated, fails: `bigPair` is well formed with `rope_length` 0, and
`rope_split(bigPair, 1)` is not rejected although `1 > rope_length`: the root
caches `left_length = 2 ^ 31`, so the call descends into the left leaf and
cuts it. -/
theorem split_rejects_counterexample :
    WF bigPair ∧ InRange bigPair ∧ rope_length bigPair < 1
      ∧ ∃ hd tl, rope_split bigPair 1 = .ok (hd, tl) :=
  split_rejects_zeroPair 2147483648 rfl

/-- C11 (amended): for every well-formed rope `R` whose content is shorter
than `2 ^ 32` bytes and every position `p`, `rope_split(R, p)` fails exactly
when `p > rope_length R`; for `p ≤ rope_length R` it completes; and for
`p > rope_length R` the recursion follows right children only and aborts with
the tree exactly as it was before the call. -/
theorem split_rejects (R : Rope) (p : Nat) (h : WF R)
    (hb : (flatten R).length < UINT_SIZE) :
    ((∃ t, rope_split R p = .error t) ↔ rope_length R < p)
      ∧ (p ≤ rope_length R → ∃ hd tl, rope_split R p = .ok (hd, tl))
      ∧ (rope_length R < p →
          rope_split R p = .error R ∧ ∀ d ∈ split_path R p, d = Dir.right) := by
  obtain ⟨hlen, hx⟩ := exact_of_wf R h hb
  have hr := inRange_of_wf R h hb
  have hok : p ≤ rope_length R → ∃ hd tl, rope_split R p = .ok (hd, tl) := by
    intro hp
    obtain ⟨hd, tl, e, -⟩ := rope_split_wf R p h hr hp
    exact ⟨hd, tl, e⟩
  have hfail : rope_length R < p →
      rope_split R p = .error R ∧ ∀ d ∈ split_path R p, d = Dir.right :=
    fun hp => rope_split_fail R p hx (by omega)
  refine ⟨⟨?_, fun hp => ⟨R, (hfail hp).1⟩⟩, hok, hfail⟩
  rintro ⟨t, e⟩
  by_contra hc
  obtain ⟨hd, tl, e'⟩ := hok (by omega)
  rw [e] at e'
  cases e'

/-- Instance of C11 (amended): `rope_split(helo|world, 10)` on a rope of 9
bytes. -/
theorem split_rejects_witness :
    WF helo_world ∧ (flatten helo_world).length < UINT_SIZE ∧
      (((∃ t, rope_split helo_world 10 = .error t) ↔ rope_length helo_world < 10)
      ∧ (10 ≤ rope_length helo_world → ∃ hd tl, rope_split helo_world 10 = .ok (hd, tl))
      ∧ (rope_length helo_world < 10 →
          rope_split helo_world 10 = .error helo_world
            ∧ ∀ d ∈ split_path helo_world 10, d = Dir.right)) :=
  ⟨by decide, by decide, split_rejects helo_world 10 (by decide) (by decide)⟩

/-- C12, as stated, fails: `bigPair` is well formed with `rope_length` 0, and
`rope_delete(bigPair, 0, 1)` completes although `to = 1` lies beyond
`rope_length`. -/
theorem delete_rejects_counterexample :
    WF bigPair ∧ InRange bigPair ∧ rope_length bigPair < 1
      ∧ ∃ J, rope_delete bigPair 0 1 = .ok J :=
  delete_rejects_zeroPair 2147483648 rfl

/-- C12 (amended): for every well-formed rope `R` whose content is shorter
than `2 ^ 32` bytes and all positions `from`, `to`, `rope_delete(R, from, to)`
completes without an assertion failure exactly when
`from < to ≤ rope_length R`; it fails when `to ≤ from`, and it fails when
`from` or `to` lies beyond `rope_length R`. -/
theorem delete_rejects (R : Rope) (from_position to_position : Nat) (h : WF R)
    (hb : (flatten R).length < UINT_SIZE) :
    ((∃ J, rope_delete R from_position to_position = .ok J)
        ↔ (from_position < to_position ∧ to_position ≤ rope_length R))
      ∧ (to_position ≤ from_position →
          ∃ e, rope_delete R from_position to_position = .error e)
      ∧ (rope_length R < from_position ∨ rope_length R < to_position →
          ∃ e, rope_delete R from_position to_position = .error e) := by
  obtain ⟨c1, c2, c3, c4⟩ := rope_delete_cases R from_position to_position h hb
  have herr : ¬ (from_position < to_position ∧ to_position ≤ rope_length R) →
      ∃ e, rope_delete R from_position to_position = .error e := by
    intro hn
    by_cases hft : from_position < to_position
    · by_cases hf : from_position ≤ rope_length R
      · obtain ⟨hd, mid, -, e, -⟩ := c3 hft hf (by omega)
        exact ⟨hd, e⟩
      · exact ⟨R, c2 hft (by omega)⟩
    · exact ⟨R, c1 (by omega)⟩
  refine ⟨⟨?_, fun hc => c4 hc.1 hc.2⟩, fun hle => herr (by omega),
    fun hbey => herr (by omega)⟩
  rintro ⟨J, e⟩
  by_contra hc
  obtain ⟨e', he'⟩ := herr hc
  rw [e] at he'
  cases he'

/-- Instance of C12 (amended): `rope_delete(helo|world, 2, 10)` on a rope of 9
bytes. -/
theorem delete_rejects_witness :
    WF helo_world ∧ (flatten helo_world).length < UINT_SIZE ∧
      (((∃ J, rope_delete helo_world 2 10 = .ok J) ↔ (2 < 10 ∧ 10 ≤ rope_length helo_world))
      ∧ (10 ≤ 2 → ∃ e, rope_delete helo_world 2 10 = .error e)
      ∧ (rope_length helo_world < 2 ∨ rope_length helo_world < 10 →
          ∃ e, rope_delete helo_world 2 10 = .error e)) :=
  ⟨by decide, by decide, delete_rejects helo_world 2 10 (by decide) (by decide)⟩

/-- C13, as stated, fails: `bigPair` is well formed with `rope_length` 0, and
`rope_insert(bigPair, 1, "!", 1)` completes although the position lies beyond
`rope_length`. -/
theorem insert_rejects_counterexample :
    WF bigPair ∧ InRange bigPair ∧ rope_length bigPair < 1
      ∧ ∃ J, rope_insert bigPair 1 (some [33]) 1 = .ok J :=
  insert_rejects_zeroPair 2147483648 rfl

/-- C13 (amended): for every well-formed rope `R` whose content is shorter
than `2 ^ 32` bytes, every position `p` and every non-null `data` with length
argument `n`, `rope_insert(R, p, data, n)` completes without an assertion
failure exactly when `n > 0` and `p ≤ rope_length R`; with `n = 0` the call is
rejected, and the tree is then exactly as it was before the call. -/
theorem insert_rejects (R : Rope) (p : Nat) (d : List Byte) (n : Nat) (h : WF R)
    (hb : (flatten R).length < UINT_SIZE) :
    ((∃ J, rope_insert R p (some d) n = .ok J) ↔ (0 < n ∧ p ≤ rope_length R))
      ∧ rope_insert R p (some d) 0 = .error R := by
  obtain ⟨c1, c2, c3⟩ := rope_insert_cases R p d n h hb
  refine ⟨⟨?_, fun hc => c3 hc.1 hc.2⟩, (rope_insert_cases R p d 0 h hb).1 rfl⟩
  rintro ⟨J, e⟩
  by_contra hc
  have herr : rope_insert R p (some d) n = .error R := by
    by_cases hn : 0 < n
    · exact c2 hn (by omega)
    · exact c1 (by omega)
  rw [e] at herr
  cases herr

/-- Instance of C13 (amended): `rope_insert(helo|world, 3, "l", 1)`. -/
theorem insert_rejects_witness :
    WF helo_world ∧ (flatten helo_world).length < UINT_SIZE ∧
      (((∃ J, rope_insert helo_world 3 (some [108]) 1 = .ok J)
          ↔ (0 < 1 ∧ 3 ≤ rope_length helo_world))
      ∧ rope_insert helo_world 3 (some [108]) 0 = .error helo_world) :=
  ⟨by decide, by decide, insert_rejects helo_world 3 [108] 1 (by decide) (by decide)⟩

/-- C14, as stated, fails: `rope_delete(helo|world, 2, 10)` on the rope of 9
bytes is rejected (`to` lies beyond the length), but only by the second
`rope_split`; at that moment the first split has already cut the tree rooted
at `R` down to `he`. -/
theorem delete_atomic_counterexample :
    WF helo_world ∧ rope_length helo_world < 10
      ∧ rope_delete helo_world 2 10
          = .error (.node 2 (.leaf (some [104, 101, 108, 111]) 2) (.leaf none 0))
      ∧ Rope.node 2 (.leaf (some [104, 101, 108, 111]) 2) (.leaf none 0) ≠ helo_world
      ∧ flatten (.node 2 (.leaf (some [104, 101, 108, 111]) 2) (.leaf none 0))
          ≠ flatten helo_world :=
  ⟨by decide, by decide, rfl, by decide, by decide⟩

/-- C14 (amended): for every well-formed rope `R` whose content is shorter
than `2 ^ 32` bytes, a call `rope_delete(R, from, to)` with `to ≤ from`, or
with `from > rope_length R`, fails with the tree rooted at `R` exactly as it
was; a call with `from ≤ rope_length R < to` fails in the second split, when
the tree rooted at `R` is the head left by `rope_split(R, from)`, holding the
first `from` bytes of the content. -/
theorem delete_rejected_state (R : Rope) (from_position to_position : Nat) (h : WF R)
    (hb : (flatten R).length < UINT_SIZE) :
    (to_position ≤ from_position →
        rope_delete R from_position to_position = .error R)
      ∧ (from_position < to_position → rope_length R < from_position →
          rope_delete R from_position to_position = .error R)
      ∧ (from_position < to_position → from_position ≤ rope_length R →
          rope_length R < to_position →
          ∃ hd mid, rope_split R from_position = .ok (hd, mid)
            ∧ rope_delete R from_position to_position = .error hd
            ∧ flatten hd = (flatten R).take from_position) := by
  obtain ⟨c1, c2, c3, -⟩ := rope_delete_cases R from_position to_position h hb
  exact ⟨c1, c2, c3⟩

/-- Instance of C14 (amended): `rope_delete(helo|world, 2, 10)`. -/
theorem delete_rejected_state_witness :
    WF helo_world ∧ (flatten helo_world).length < UINT_SIZE ∧
      ((10 ≤ 2 → rope_delete helo_world 2 10 = .error helo_world)
      ∧ (2 < 10 → rope_length helo_world < 2 →
          rope_delete helo_world 2 10 = .error helo_world)
      ∧ (2 < 10 → 2 ≤ rope_length helo_world → rope_length helo_world < 10 →
          ∃ hd mid, rope_split helo_world 2 = .ok (hd, mid)
            ∧ rope_delete helo_world 2 10 = .error hd
            ∧ flatten hd = (flatten helo_world).take 2)) :=
  ⟨by decide, by decide, delete_rejected_state helo_world 2 10 (by decide) (by decide)⟩

/-- C15: the `left_length` cache invariant is preserved by every operation.
`rope_create` returns a well-formed leaf (from a source holding the `n` bytes it
is told to copy, or from a null pointer); `rope_concat` of two well-formed
ropes is well formed; for a well-formed `R` (its fields being `unsigned int`
values) and `p ≤ rope_length R`, both parts of `rope_split(R, p)` are well
formed; and so are the results of `rope_insert` and `rope_delete` called
within their preconditions. -/
theorem wf_preserved (R R2 : Rope) (p from_position to_position n : Nat)
    (d : List Byte) (h : WF R) (h2 : WF R2) (hr : InRange R) :
    (n ≤ d.length → WF (rope_create (some d) n))
      ∧ WF (rope_create none n)
      ∧ WF (rope_concat R R2)
      ∧ (p ≤ rope_length R → ∃ hd tl, rope_split R p = .ok (hd, tl) ∧ WF hd ∧ WF tl)
      ∧ (0 < n → n ≤ d.length → p ≤ rope_length R →
          ∃ J, rope_insert R p (some d) n = .ok J ∧ WF J)
      ∧ (from_position < to_position → to_position ≤ rope_length R →
          ∃ J, rope_delete R from_position to_position = .ok J ∧ WF J) := by
  have hcreate : n ≤ d.length → WF (rope_create (some d) n) := by
    intro hn
    simp [rope_create, WF, bufSize, hn]
  refine ⟨hcreate, by simp [rope_create, WF, bufSize], ⟨rfl, h, h2⟩, ?_, ?_, ?_⟩
  · intro hp
    obtain ⟨hd, tl, e, w1, w2, -⟩ := rope_split_wf R p h hr hp
    exact ⟨hd, tl, e, w1, w2⟩
  · intro hn hnd hp
    obtain ⟨hd, tl, e, w1, w2, -⟩ := rope_split_wf R p h hr hp
    refine ⟨rope_concat hd (rope_concat (rope_create (some d) n) tl), ?_, ?_⟩
    · simp [rope_insert, hn, e]
    · exact ⟨rfl, w1, rfl, hcreate hnd, w2⟩
  · intro hft ht
    obtain ⟨hd, mid, e, w1, wmid, -, rmid, -, lmid, -⟩ :=
      rope_split_wf R from_position h hr (by omega)
    obtain ⟨dl, tl, e3, -, w3, -⟩ :=
      rope_split_wf mid (to_position - from_position) wmid rmid (by omega)
    refine ⟨rope_concat hd tl, ?_, ⟨rfl, w1, w3⟩⟩
    simp [rope_delete, hft, e, e3]

/-- Instance of C15 on `helo|world`: joined with itself, split at 2, with `l`
inserted at 3, and with the range `[2, 6)` deleted. -/
theorem wf_preserved_witness :
    WF helo_world ∧ InRange helo_world ∧
      ((1 ≤ [108].length → WF (rope_create (some [108]) 1))
      ∧ WF (rope_create none 1)
      ∧ WF (rope_concat helo_world helo_world)
      ∧ (3 ≤ rope_length helo_world →
          ∃ hd tl, rope_split helo_world 3 = .ok (hd, tl) ∧ WF hd ∧ WF tl)
      ∧ (0 < 1 → 1 ≤ [108].length → 3 ≤ rope_length helo_world →
          ∃ J, rope_insert helo_world 3 (some [108]) 1 = .ok J ∧ WF J)
      ∧ (2 < 6 → 6 ≤ rope_length helo_world →
          ∃ J, rope_delete helo_world 2 6 = .ok J ∧ WF J)) :=
  ⟨by decide, by decide,
    wf_preserved helo_world helo_world 3 2 6 1 [108] (by decide) (by decide) (by decide)⟩

/-- C16, as stated, fails: on `bigRope`, offset 1 lies inside the first chunk
(it is no chunk boundary), but `rope_split(bigRope, 1)` does not cut the chunk
that contains offset 1: it cuts the last chunk `xyz`, 4 GiB further right. -/
theorem split_chunks_counterexample :
    WF bigRope ∧ InRange bigRope ∧ 1 ≤ rope_length bigRope
      ∧ ¬ isBoundary (chunks bigRope) 1
      ∧ ¬ ∃ hd tl, rope_split bigRope 1 = .ok (hd, tl)
          ∧ cutInside (chunks bigRope) (chunks hd) (chunks tl) 1 :=
  split_chunks_wrapRope 2147483648 rfl

/-- C16 (amended): split cuts at most one leaf and keeps every other chunk
intact.  For every well-formed rope `R` whose content is shorter than `2 ^ 32`
bytes and every `p ≤ rope_length R`, `rope_split(R, p)` succeeds; if `p` falls
on a chunk boundary (or at 0 or at the end), the chunks of the head followed by
the chunks of the tail are the chunks of `R`; otherwise they are the chunks of
`R` with the single chunk containing offset `p` replaced by its two non-empty
pieces; in both cases the head chunks hold the first `p` bytes and the tail
chunks the rest. -/
theorem split_chunks (R : Rope) (p : Nat) (h : WF R)
    (hb : (flatten R).length < UINT_SIZE) (hp : p ≤ rope_length R) :
    ∃ hd tl, rope_split R p = .ok (hd, tl)
      ∧ (isBoundary (chunks R) p → chunks hd ++ chunks tl = chunks R)
      ∧ (¬ isBoundary (chunks R) p → cutInside (chunks R) (chunks hd) (chunks tl) p)
      ∧ (chunks hd).flatten = (flatten R).take p
      ∧ (chunks tl).flatten = (flatten R).drop p := by
  obtain ⟨hlen, hx⟩ := exact_of_wf R h hb
  have hp2 : p ≤ (flatten R).length := by omega
  obtain ⟨hd, tl, e, hc⟩ := rope_split_chunks R p hx hp2
  obtain ⟨hd2, tl2, e', e1, e2⟩ := rope_split_exact R p hx hp2
  rw [e] at e'
  injection e' with e'
  injection e' with eh et
  subst eh
  subst et
  refine ⟨hd, tl, e, ?_, ?_, by rw [chunks_flatten, e1], by rw [chunks_flatten, e2]⟩
  · intro hbd
    rcases hc with hc | ⟨pre, c, post, a1, a2, a3, -⟩
    · exact hc
    · rw [a1] at hbd
      exact absurd hbd (not_isBoundary_inside pre post c p a2 a3)
  · intro hnb
    rcases hc with hc | hc
    · exfalso
      apply hnb
      have hl : (chunks hd).flatten.length = p := by
        rw [chunks_flatten, e1, List.length_take]
        omega
      rw [← hc, ← hl]
      exact isBoundary_prefix _ _
    · exact hc

/-- Instance of C16 (amended): `helo|world` split at 2, inside the chunk
`helo`. -/
theorem split_chunks_witness :
    WF helo_world ∧ (flatten helo_world).length < UINT_SIZE ∧ 2 ≤ rope_length helo_world ∧
      ∃ hd tl, rope_split helo_world 2 = .ok (hd, tl)
        ∧ (isBoundary (chunks helo_world) 2 → chunks hd ++ chunks tl = chunks helo_world)
        ∧ (¬ isBoundary (chunks helo_world) 2 →
            cutInside (chunks helo_world) (chunks hd) (chunks tl) 2)
        ∧ (chunks hd).flatten = (flatten helo_world).take 2
        ∧ (chunks tl).flatten = (flatten helo_world).drop 2 :=
  ⟨by decide, by decide, by decide,
    split_chunks helo_world 2 (by decide) (by decide) (by decide)⟩

/-- C17: split exactly at the left/right boundary.  For every internal node
with children `L` and `Rt`, `rope_split` at `p = left_length` returns the
original right subtree `Rt` itself, leaves `L` and `left_length` unchanged, and
puts a fresh empty leaf (length 0, null buffer) in place of the right child;
no recursive call is made, so no leaf is copied or cut. -/
theorem split_at_left_length (ll : Nat) (L Rt : Rope) :
    rope_split (.node ll L Rt) ll = .ok (.node ll L (.leaf none 0), Rt)
      ∧ split_path (.node ll L Rt) ll = [] := by
  constructor
  · simp [rope_split, empty, rope_create]
  · simp [split_path]

/-- C18: iteration visits every leaf once, in order, including empty leaves.
For every rope and every callback, `rope_iter` is the left fold of the
callback over the in-order list of leaves (buffer and recorded length of each
leaf, nothing for internal nodes); the recorded sequence of invocations is that
list; a leaf of length 0, such as the empty leaf left by a split, is visited
with length 0; and a second call on the unchanged rope records the same
sequence again. -/
theorem rope_iter_visits {σ : Type} (R : Rope) (cb : Option (List Byte) → Nat → σ → σ)
    (ctx : σ) :
    rope_iter R cb ctx = iterate_spec R cb ctx
      ∧ rope_iter R record_cb [] = leavesInOrder R
      ∧ (∀ data, rope_iter (.leaf data 0) record_cb [] = [(data, 0)])
      ∧ rope_iter empty record_cb [] = [(none, 0)]
      ∧ rope_iter R record_cb (rope_iter R record_cb [])
          = leavesInOrder R ++ leavesInOrder R := by
  have hrec : ∀ log, rope_iter R record_cb log = log ++ leavesInOrder R := by
    intro log
    rw [rope_iter_foldl, iterate_spec, foldl_record]
  refine ⟨rope_iter_foldl R cb ctx, by simpa using hrec [], fun data => rfl, rfl, ?_⟩
  rw [hrec, hrec]
  simp

/-- C19, as stated, fails: on `maxLeaf` (one leaf of `2 ^ 32 - 1` bytes) with
`p = 2 ^ 32 - 1` and `S = "!"`, the insertion succeeds, but the end position
`p + |S|` is 0 as an `unsigned int`, and `rope_delete(J, 4294967295, 0)` aborts
at the assertion `to_position > from_position`. -/
theorem insert_delete_roundtrip_counterexample :
    WF maxLeaf ∧ InRange maxLeaf ∧ 4294967295 ≤ rope_length maxLeaf
      ∧ [33] ≠ ([] : List Byte)
      ∧ ∃ J, rope_insert maxLeaf 4294967295 (some [33]) [33].length = .ok J
          ∧ rope_delete J 4294967295 ((4294967295 + [33].length) % UINT_SIZE)
              = .error J :=
  insert_delete_zeroLeaf 4294967295 rfl

/-- C19 (amended): insert followed by delete of the inserted range.  For every
well-formed rope `R` (its fields being `unsigned int` values), every
`p ≤ rope_length R` and every non-empty `S` with `p + |S| < 2 ^ 32`,
`rope_insert(R, p, S, |S|)` succeeds, `rope_delete` of `[p, p + |S|)` on its
result succeeds (the end position being computed in `unsigned int`), and the
final rope has the flattened content and the `rope_length` of the original
`R`. -/
theorem insert_delete_roundtrip (R : Rope) (p : Nat) (S : List Byte) (h : WF R)
    (hr : InRange R) (hp : p ≤ rope_length R) (hS : S ≠ [])
    (hsum : p + S.length < UINT_SIZE) :
    ∃ J K, rope_insert R p (some S) S.length = .ok J
      ∧ rope_delete J p ((p + S.length) % UINT_SIZE) = .ok K
      ∧ flatten K = flatten R ∧ rope_length K = rope_length R := by
  obtain ⟨hd, tl, e, -, -, -, -, l1, l2, f⟩ := rope_split_wf R p h hr hp
  have hpos : 0 < S.length := List.length_pos.mpr hS
  have hlt := rope_length_lt R hr
  have hmod : (p + S.length) % UINT_SIZE = p + S.length := Nat.mod_eq_of_lt hsum
  have hleaf : rope_length (rope_create (some S) S.length) = S.length := by
    simp [rope_create, rope_length]
  have e1 : rope_split (rope_concat hd (rope_concat (rope_create (some S) S.length) tl)) p
      = .ok (.node p hd empty, rope_concat (rope_create (some S) S.length) tl) := by
    simp [rope_concat, rope_split, l1]
  have e2 : rope_split (rope_concat (rope_create (some S) S.length) tl) S.length
      = .ok (.node S.length (rope_create (some S) S.length) empty, tl) := by
    simp [rope_concat, rope_split, hleaf]
  refine ⟨rope_concat hd (rope_concat (rope_create (some S) S.length) tl),
    rope_concat (.node p hd empty) tl, ?_, ?_, ?_, ?_⟩
  · simp [rope_insert, hpos, e]
  · rw [hmod]
    simp [rope_delete, hpos, e1, e2]
  · simpa using f
  · simp only [rope_concat, rope_length, rope_length_empty, l2, UINT_SIZE] at hlt ⊢
    omega

/-- Instance of C19 (amended): `l` inserted into `helo|world` at 3 and deleted
again. -/
theorem insert_delete_roundtrip_witness :
    WF helo_world ∧ InRange helo_world ∧ 3 ≤ rope_length helo_world
      ∧ [108] ≠ ([] : List Byte) ∧ 3 + [108].length < UINT_SIZE ∧
      ∃ J K, rope_insert helo_world 3 (some [108]) [108].length = .ok J
        ∧ rope_delete J 3 ((3 + [108].length) % UINT_SIZE) = .ok K
        ∧ flatten K = flatten helo_world ∧ rope_length K = rope_length helo_world :=
  ⟨by decide, by decide, by decide, by decide, by decide,
    insert_delete_roundtrip helo_world 3 [108] (by decide) (by decide) (by decide)
      (by decide) (by decide)⟩

/-- C20: `rope_length` tracks a deletion.  For every well-formed rope `R` (its
fields being `unsigned int` values) with `n = rope_length R` and
`from < to ≤ n`, `rope_delete(R, from, to)` succeeds, the `rope_length` of its
result is `n - (to - from)`, and the root of the result, built by
`rope_concat(head, tail)`, has `left_length = from`. -/
theorem delete_length (R : Rope) (from_position to_position : Nat) (h : WF R)
    (hr : InRange R) (hft : from_position < to_position)
    (hto : to_position ≤ rope_length R) :
    ∃ J, rope_delete R from_position to_position = .ok J
      ∧ rope_length J = rope_length R - (to_position - from_position)
      ∧ ∃ hd tl, J = .node from_position hd tl := by
  obtain ⟨hd, mid, e, -, wmid, -, rmid, l1, lmid, -⟩ :=
    rope_split_wf R from_position h hr (by omega)
  obtain ⟨dl, tl, e3, -, -, -, -, -, l3, -⟩ :=
    rope_split_wf mid (to_position - from_position) wmid rmid (by omega)
  have hlt := rope_length_lt R hr
  refine ⟨rope_concat hd tl, by simp [rope_delete, hft, e, e3], ?_,
    hd, tl, by simp [rope_concat, l1]⟩
  simp only [rope_concat, rope_length, l1, l3, lmid, UINT_SIZE] at hlt ⊢
  omega

/-- Instance of C20: `rope_delete(helo|world, 2, 6)`. -/
theorem delete_length_witness :
    WF helo_world ∧ InRange helo_world ∧ 2 < 6 ∧ 6 ≤ rope_length helo_world ∧
      ∃ J, rope_delete helo_world 2 6 = .ok J
        ∧ rope_length J = rope_length helo_world - (6 - 2)
        ∧ ∃ hd tl, J = .node 2 hd tl :=
  ⟨by decide, by decide, by decide, by decide,
    delete_length helo_world 2 6 (by decide) (by decide) (by decide) (by decide)⟩

end Rope
